import Mathlib

/-!
Verification of the static site generator in `site.py` (repository
`banderson443/github_blog`).  The Python source is shallowly embedded:
strings are `List Char` / `String`, YAML values are an inductive `Value`,
dicts are insertion-ordered association lists, datetimes are a `Timestamp`
record ordered lexicographically, and fallible code returns `Except`.
Each embedded definition is annotated with the Python function it models.
-/

namespace SiteGen

/-! ## Python string primitives -/

/-- Model of Python `str.strip(chars)` on character lists: remove from both
ends every character that occurs in `cs` (a character *set*, not a prefix
or suffix string). -/
def pyStripChars (cs : List Char) (l : List Char) : List Char :=
  ((l.dropWhile (fun c => cs.contains c)).reverse.dropWhile
    (fun c => cs.contains c)).reverse

/-- Model of Python `str.strip(chars)` on `String`. -/
def pyStrip (s : String) (chars : String) : String :=
  ⟨pyStripChars chars.data s.data⟩

/-- Model of Python `str.split(sep)` for a one-character separator (the
source only splits on `"/"`).  `split` always returns a non-empty list;
splitting the empty string yields `[""]`. -/
def splitOnChar (sep : Char) : List Char → List (List Char)
  | [] => [[]]
  | c :: rest =>
    let r := splitOnChar sep rest
    if c == sep then [] :: r
    else
      match r with
      | [] => [[c]]
      | g :: gs => (c :: g) :: gs

/-! ## `get_template_name` (site.py lines 127-135) -/

/-- Embedding of `get_template_name(filename, content_dir, default="page.html")`:
`parent = str(filename).strip(content_dir).split("/")[0]`, then a lookup in
the table `{"blog": "blog.html", "pages": "page.html"}` with the default as
fallback.  Note the source calls `str.strip`, which removes *characters* of
`content_dir` from both ends, not the leading path component. -/
def get_template_name (filename : String) (content_dir : String)
    (dflt : String := "page.html") : String :=
  let parent : List Char :=
    ((splitOnChar '/' (pyStripChars content_dir.data filename.data)).headD [])
  if parent = "blog".data then "blog.html"
  else if parent = "pages".data then "page.html"
  else dflt

/-! ## Configuration values and `load_config` (site.py lines 33-74) -/

/-- YAML-style values as produced by `ez_yaml.to_object`: strings, integers,
booleans and (insertion-ordered) mappings.  Mappings are association lists,
mirroring Python dict insertion order. -/
inductive Value where
  | str (s : String)
  | int (n : Int)
  | bool (b : Bool)
  | dict (entries : List (String × Value))

/-- Check whether a value is a mapping (`isinstance(x, dict)`). -/
def Value.isDict : Value → Bool
  | .dict _ => true
  | _ => false

/-- Dictionary lookup `d[k]` / `d.get(k)`: the first entry with the key. -/
def dlookup (d : List (String × Value)) (k : String) : Option Value :=
  (d.find? (fun e => e.1 == k)).map (fun e => e.2)

/-- Dictionary assignment `d[k] = v`: replace the value in place if the key
is present (Python dicts keep the key in its original position), otherwise
append the new key at the end. -/
def dset : List (String × Value) → String → Value → List (String × Value)
  | [], k, v => [(k, v)]
  | e :: rest, k, v =>
    if e.1 == k then (k, v) :: rest else e :: dset rest k v

/-- Model of `d.update(u)`: assign every entry of `u` into `d`, in order. -/
def dupdate (d u : List (String × Value)) : List (String × Value) :=
  u.foldl (fun acc e => dset acc e.1 e.2) d

/-- Embedding of the module-level `DEFAULT_CONFIG` dictionary. -/
def DEFAULT_CONFIG : List (String × Value) :=
  [("site", .dict
      [("title", .str "Firstname Lastname"),
       ("author", .str "Firstname Lastname"),
       ("url", .str "https://blog.banderson443.me"),
       ("description", .str "Personal blog and writings")]),
   ("paths", .dict
      [("content", .str "content"),
       ("output", .str "docs"),
       ("templates", .str "templates"),
       ("static", .str "static")]),
   ("build", .dict
      [("posts_per_page", .int 20),
       ("include_drafts", .bool false)]),
   ("feeds", .dict
      [("enabled", .bool true),
       ("rss_path", .str "/feed/rss/"),
       ("atom_path", .str "/feed/atom/")])]

/-- Embedding of the merge loop of `load_config` as a pure function of the
starting configuration: `config = defaults.copy()`, then for each user key,
`config[key].update(user[key])` when the user value is a dict (a `KeyError`
if `config` lacks the key, an `AttributeError` if `config[key]` is not a
dict), and `config[key] = user[key]` otherwise. -/
def mergeConfig : List (String × Value) → List (String × Value) →
    Except String (List (String × Value))
  | cfg, [] => .ok cfg
  | cfg, (k, Value.dict uv) :: rest =>
    match dlookup cfg k with
    | some (Value.dict dv) => mergeConfig (dset cfg k (.dict (dupdate dv uv))) rest
    | some _ => .error ("AttributeError: update called on non-dict value at key " ++ k)
    | none => .error ("KeyError: " ++ k)
  | cfg, (k, v) :: rest => mergeConfig (dset cfg k v) rest

/-- Merge loop of `load_config` with the aliasing of `dict.copy()` made
explicit.  `config = DEFAULT_CONFIG.copy()` is a *shallow* copy: each
section value of `config` is the same object as the corresponding section
of the module-level `DEFAULT_CONFIG`, so `config[key].update(...)` mutates
`DEFAULT_CONFIG[key]` as well, while the rebinding `config[key] = value`
only changes the copy.  The second component threads the module-level
`DEFAULT_CONFIG` object through the call. -/
def mergeMut : List (String × Value) → List (String × Value) →
    List (String × Value) →
    Except String (List (String × Value)) × List (String × Value)
  | cfg, dfl, [] => (.ok cfg, dfl)
  | cfg, dfl, (k, Value.dict uv) :: rest =>
    match dlookup cfg k with
    | some (Value.dict dv) =>
      mergeMut (dset cfg k (.dict (dupdate dv uv)))
        (dset dfl k (.dict (dupdate dv uv))) rest
    | some _ => (.error ("AttributeError: update called on non-dict value at key " ++ k), dfl)
    | none => (.error ("KeyError: " ++ k), dfl)
  | cfg, dfl, (k, v) :: rest => mergeMut (dset cfg k v) dfl rest

/-- Embedding of `load_config`: given the current state of the module-level
`DEFAULT_CONFIG` and the parsed user file (`none` when the file does not
exist), return the configuration handed to the caller together with the
state of `DEFAULT_CONFIG` after the call.  When the file is missing the
module-level dictionary itself is returned. -/
def load_config_model (moduleDefaults : List (String × Value)) :
    Option (List (String × Value)) →
    Except String (List (String × Value)) × List (String × Value)
  | none => (.ok moduleDefaults, moduleDefaults)
  | some user => mergeMut moduleDefaults moduleDefaults user

/-- Lookup of a key inside a named section: `config[k][ik]` when
`config[k]` is a mapping. -/
def sectionLookup (d : List (String × Value)) (k ik : String) : Option Value :=
  match dlookup d k with
  | some (Value.dict s) => dlookup s ik
  | _ => none


/-! ## Concrete configuration inputs used in the claim theorems -/

/-- User configuration overriding one key inside `site` and adding one
scalar top-level key (a well-shaped user file). -/
def c2User : List (String × Value) :=
  [("site", Value.dict [("title", Value.str "My Blog")]), ("banner", Value.str "x")]

/-- User configuration overriding `build.posts_per_page` inside the
`build` section. -/
def c10User : List (String × Value) :=
  [("build", Value.dict [("posts_per_page", Value.int 5)])]

/-! ## `normalize_tag` (site.py lines 225-231) -/

/-- Model of the first line of `normalize_tag`:
`unicodedata.normalize("NFKD", value).encode("ascii", "ignore").decode("ascii")`
at the level of one character.  ASCII characters are unchanged; Latin
letters whose NFKD decomposition is a base letter plus combining marks
decompose to the base ASCII letter (the marks are then dropped by the
ascii/ignore encode); other non-ASCII characters have no ASCII
decomposition and are dropped entirely. -/
def nfkdAscii (c : Char) : List Char :=
  if c.toNat < 128 then [c]
  else match c with
    | 'à' | 'á' | 'â' | 'ã' | 'ä' | 'å' => ['a']
    | 'è' | 'é' | 'ê' | 'ë' => ['e']
    | 'ì' | 'í' | 'î' | 'ï' => ['i']
    | 'ò' | 'ó' | 'ô' | 'õ' | 'ö' => ['o']
    | 'ù' | 'ú' | 'û' | 'ü' => ['u']
    | 'ý' | 'ÿ' => ['y']
    | 'ñ' => ['n']
    | 'ç' => ['c']
    | 'À' | 'Á' | 'Â' | 'Ã' | 'Ä' | 'Å' => ['A']
    | 'È' | 'É' | 'Ê' | 'Ë' => ['E']
    | 'Ì' | 'Í' | 'Î' | 'Ï' => ['I']
    | 'Ò' | 'Ó' | 'Ô' | 'Õ' | 'Ö' => ['O']
    | 'Ù' | 'Ú' | 'Û' | 'Ü' => ['U']
    | 'Ý' => ['Y']
    | 'Ñ' => ['N']
    | 'Ç' => ['C']
    | _ => []

/-- Model of `str.lower` restricted to the ASCII strings produced by the
encode/decode step above: map A-Z (codes 65-90) to a-z. -/
def asciiLower (c : Char) : Char :=
  if 65 ≤ c.toNat && c.toNat ≤ 90 then Char.ofNat (c.toNat + 32) else c

/-- Regex class `\w` over the ASCII strings it is applied to:
letters, digits and underscore. -/
def isWordChar (c : Char) : Bool :=
  (97 ≤ c.toNat && c.toNat ≤ 122) || (65 ≤ c.toNat && c.toNat ≤ 90) ||
  (48 ≤ c.toNat && c.toNat ≤ 57) || c.toNat == 95

/-- Regex class `\s` over ASCII: space, tab, newline, carriage return,
vertical tab, form feed. -/
def isPySpace (c : Char) : Bool :=
  c.toNat == 32 || c.toNat == 9 || c.toNat == 10 || c.toNat == 13 ||
  c.toNat == 11 || c.toNat == 12

/-- Regex class `[-\s]` (hyphen or whitespace). -/
def isHS (c : Char) : Bool := c.toNat == 45 || isPySpace c

/-- Complement of the regex class `[^\w\s-]`: the characters kept by
`re.sub(r"[^\w\s-]", "", ...)`. -/
def keepChar (c : Char) : Bool := isWordChar c || isPySpace c || c.toNat == 45

/-- Model of `re.sub(r"[-\s]+", "-", value)`: replace every maximal run of
hyphens/whitespace by a single hyphen.  The flag records whether the
previous character was part of such a run. -/
def collapseAux : Bool → List Char → List Char
  | _, [] => []
  | inRun, c :: rest =>
    if isHS c then
      (if inRun then [] else ['-']) ++ collapseAux true rest
    else c :: collapseAux false rest

/-- Body of `normalize_tag` on character lists: NFKD + ascii/ignore fold,
lowercase, delete characters matching `[^\w\s-]`, collapse `[-\s]+` runs
to a single hyphen, and strip leading/trailing `-`/`_`. -/
def slugPipeline (l : List Char) : List Char :=
  pyStripChars ['-', '_']
    (collapseAux false (((l.flatMap nfkdAscii).map asciiLower).filter keepChar))

/-- Embedding of `normalize_tag` (site.py lines 225-231). -/
def normalize_tag (s : String) : String := ⟨slugPipeline s.data⟩

/-- Case-and-accent fold of one character: its NFKD/ascii decomposition,
lowercased.  Two characters that differ only by letter case or by combining
accents have the same fold. -/
def charFold (c : Char) : List Char := (nfkdAscii c).map asciiLower

-- #eval normalize_tag "Go Lang"
-- #eval normalize_tag "Crème Brûlée!"
-- #eval normalize_tag "  -_hello__World_-  "
-- #eval normalize_tag (normalize_tag "  -_hello__World_-  ")
-- #eval normalize_tag "a_-b"
-- #eval normalize_tag "ÉMILE à-la  mode"
example : normalize_tag "Go Lang" = "go-lang" := by rfl
example : normalize_tag "Crème Brûlée" = normalize_tag "creme brulee" := by rfl

/-- Characters that can occur in a normalized slug: lowercase ASCII
letters, digits, underscore, hyphen. -/
def tameChar (c : Char) : Bool :=
  (97 ≤ c.toNat && c.toNat ≤ 122) || (48 ≤ c.toNat && c.toNat ≤ 57) ||
  c.toNat == 95 || c.toNat == 45

/-- No two adjacent characters are both hyphen/whitespace. -/
def noAdjR (a b : Char) : Prop := ¬(isHS a = true ∧ isHS b = true)

/-! ## Timestamps, content items, and sorting (site.py lines 92-199) -/

/-- Absolute UTC timestamp as produced by `arrow.get(...).to("utc").datetime`:
a calendar date plus a time-of-day (in seconds).  Datetimes compare
chronologically, i.e. lexicographically by (year, month, day, time). -/
structure Timestamp where
  year : Nat
  month : Nat
  day : Nat
  tod : Nat
  deriving DecidableEq

/-- Chronological (lexicographic) comparison of datetimes. -/
def Timestamp.leb (a b : Timestamp) : Bool :=
  decide (a.year < b.year ∨ (a.year = b.year ∧ (a.month < b.month ∨ (a.month = b.month ∧
    (a.day < b.day ∨ (a.day = b.day ∧ a.tod ≤ b.tod))))))

/-- Date field of a content item after `parse_front_matter` (site.py lines
92-106): a coerced timestamp on success, or the original textual value
when `arrow.get` raised and the field was left as-is. -/
inductive DateVal where
  | ts (t : Timestamp)
  | text (s : String)
  deriving DecidableEq

/-- Whether coercion to a timestamp succeeded. -/
def DateVal.isTs : DateVal → Bool
  | .ts _ => true
  | .text _ => false

/-- Whether the field was left in its original textual form. -/
def DateVal.isText : DateVal → Bool
  | .ts _ => false
  | .text _ => true

/-- Template context of one content item as assembled by
`get_template_context` (site.py lines 117-124): the front-matter fields
the build pipeline reads, plus the rendered body `html_content`.  `none`
and `[]` model absent front-matter keys; the source reads `draft`, `tags`
and `description` through `.get` with these defaults, and `title`, `url`
and `date` by subscripting (raising `KeyError` when absent — `url` and
`title` are therefore `Option`s here, and every item in scope of the
claims carries a `date`). -/
structure Item where
  title : Option String
  date : DateVal
  tags : List String
  draft : Bool
  description : Option String
  url : Option String
  aliases : List String
  html_content : String
  deriving DecidableEq

/-- Sort key of an item whose date is a timestamp (junk value on text
dates; only used on lists where every date is a timestamp). -/
def dateKeyTs (p : Item) : Timestamp :=
  match p.date with
  | .ts t => t
  | .text _ => ⟨0, 0, 0, 0⟩

/-- Sort key of an item whose date is text (junk value on timestamps; only
used on lists where every date is text). -/
def dateKeyText (p : Item) : String :=
  match p.date with
  | .text s => s
  | .ts _ => ""

/-- Items ordered by ascending timestamp date. -/
def itemDateLe (a b : Item) : Prop := Timestamp.leb (dateKeyTs a) (dateKeyTs b) = true

/-- Items ordered by descending timestamp date. -/
def itemDateGe (a b : Item) : Prop := Timestamp.leb (dateKeyTs b) (dateKeyTs a) = true

/-- Items ordered by ascending textual date. -/
def itemTextLe (a b : Item) : Prop := dateKeyText a ≤ dateKeyText b

/-- Items ordered by descending textual date. -/
def itemTextGe (a b : Item) : Prop := dateKeyText b ≤ dateKeyText a

instance itemDateLe.decRel : DecidableRel itemDateLe :=
  fun _ _ => inferInstanceAs (Decidable (_ = true))

instance itemDateGe.decRel : DecidableRel itemDateGe :=
  fun _ _ => inferInstanceAs (Decidable (_ = true))

instance itemTextLe.decRel : DecidableRel itemTextLe :=
  fun _ _ => inferInstanceAs (Decidable (_ ≤ _))

instance itemTextGe.decRel : DecidableRel itemTextGe :=
  fun _ _ => inferInstanceAs (Decidable (_ ≤ _))

/-- Model of Python `sorted(index, key=lambda d: d["date"])` (ascending,
stable — `List.insertionSort` inserts each earlier element before later
equal elements, exactly Python sort stability).  With zero or one element
no comparison runs.  Otherwise every pair of dates must be comparable:
mixing a left-over textual date with datetimes raises `TypeError`. -/
def pySortByDate (l : List Item) : Except String (List Item) :=
  if l.length ≤ 1 then .ok l
  else if l.all (fun p => p.date.isTs) then .ok (List.insertionSort itemDateLe l)
  else if l.all (fun p => p.date.isText) then .ok (List.insertionSort itemTextLe l)
  else .error "TypeError: ordering of str and datetime is undefined"

/-- Model of `sorted(index, key=lambda d: d["date"], reverse=True)`:
stable descending (equal-date items keep their original order). -/
def pySortByDateRev (l : List Item) : Except String (List Item) :=
  if l.length ≤ 1 then .ok l
  else if l.all (fun p => p.date.isTs) then .ok (List.insertionSort itemDateGe l)
  else if l.all (fun p => p.date.isText) then .ok (List.insertionSort itemTextGe l)
  else .error "TypeError: ordering of str and datetime is undefined"

/-- The two listing pages produced by `build_index`: the home page posts
and the full blog listing posts. -/
structure IndexPages where
  home : List Item
  fullListing : List Item
  deriving DecidableEq

/-- Embedding of `build_index` (site.py lines 180-199): sort the index by
date descending, render the home page context with `index[:posts_per_page]`
and the full listing context with the whole sorted index.
`posts_per_page` is the count `config["build"]["posts_per_page"]`. -/
def build_index (posts_per_page : Nat) (index : List Item) :
    Except String IndexPages := do
  let s ← pySortByDateRev index
  .ok ⟨s.take posts_per_page, s⟩

/-! ## Date archives (site.py lines 202-222) -/

/-- Decimal rendering zero-padded to two digits (`%m`, `%d`). -/
def pad2 (n : Nat) : String := if n < 10 then "0" ++ toString n else toString n

/-- Decimal rendering zero-padded to four digits (`%Y`). -/
def pad4 (n : Nat) : String :=
  if n < 10 then "000" ++ toString n
  else if n < 100 then "00" ++ toString n
  else if n < 1000 then "0" ++ toString n
  else toString n

/-- `strftime("%Y")`. -/
def fmtY (t : Timestamp) : String := pad4 t.year

/-- `strftime("%Y/%m")`. -/
def fmtYM (t : Timestamp) : String := pad4 t.year ++ "/" ++ pad2 t.month

/-- `strftime("%Y/%m/%d")`. -/
def fmtYMD (t : Timestamp) : String :=
  pad4 t.year ++ "/" ++ pad2 t.month ++ "/" ++ pad2 t.day

/-- `strftime("%Y-%m-%d")` (sitemap `lastmod`). -/
def fmtYMDdash (t : Timestamp) : String :=
  pad4 t.year ++ "-" ++ pad2 t.month ++ "-" ++ pad2 t.day

/-- `post["date"].strftime(fmt)`: a datetime formats; a date field left as
a string has no `strftime` attribute and raises `AttributeError`. -/
def dateStrftime (d : DateVal) (f : Timestamp → String) : Except String String :=
  match d with
  | .ts t => .ok (f t)
  | .text _ => .error "AttributeError: str has no attribute strftime"

/-- `defaultdict(list)` bucket append `articles[path].append(post)`, keys
in first-insertion order (Python dicts preserve insertion order). -/
def addToBucket (m : List (String × List Item)) (k : String) (p : Item) :
    List (String × List Item) :=
  match m with
  | [] => [(k, [p])]
  | e :: rest => if e.1 == k then (e.1, e.2 ++ [p]) :: rest
                 else e :: addToBucket rest k p

/-- Posts stored under a bucket key. -/
def bucketLookup (m : List (String × List Item)) (k : String) :
    Option (List Item) :=
  (m.find? (fun e => e.1 == k)).map (fun e => e.2)

/-- Per-post body of the `build_date_archives` loop (site.py lines
205-214): format the year, year/month and year/month/day keys from
`post["date"].strftime(...)` and append the post to the three buckets. -/
def archiveStep (m : List (String × List Item)) (p : Item) :
    Except String (List (String × List Item)) := do
  let y ← dateStrftime p.date fmtY
  let ym ← dateStrftime p.date fmtYM
  let ymd ← dateStrftime p.date fmtYMD
  .ok (addToBucket (addToBucket (addToBucket m ("blog/" ++ y) p)
    ("blog/" ++ ym) p) ("blog/" ++ ymd) p)

/-- Embedding of `build_date_archives` (site.py lines 202-222): group the
index into year, month and day buckets; one listing page is rendered per
bucket.  A post whose date is still text makes `strftime` raise and the
build abort. -/
def build_date_archives (index : List Item) :
    Except String (List (String × List Item)) :=
  index.foldlM archiveStep []

/-! ## Tags (site.py lines 234-259), feeds (262-307), sitemap (310-329) -/

/-- `chain(*[post.get("tags", []) for post in index])`: all original tag
values in index order. -/
def allTags (index : List Item) : List String :=
  index.flatMap (fun p => p.tags)

/-- Lexicographic code-point comparison of character lists: the Python
`str` strict order. -/
def charListLt : List Char → List Char → Bool
  | [], [] => false
  | [], _ :: _ => true
  | _ :: _, [] => false
  | a :: as, b :: bs =>
    if a.toNat < b.toNat then true
    else if b.toNat < a.toNat then false
    else charListLt as bs

/-- Python `str` non-strict comparison (total order on strings). -/
def strLe (a b : String) : Prop := charListLt b.data a.data = false

instance strLe.decRel : DecidableRel strLe :=
  fun _ _ => inferInstanceAs (Decidable (_ = false))

/-- Model of Python `sorted(set(tags))`: the distinct original tags in
ascending lexicographic (code point) order, matching Python `str`
comparison. -/
def sortedUnique (l : List String) : List String :=
  List.insertionSort strLe
    (l.foldl (fun acc t => if acc.contains t then acc else acc ++ [t]) [])

/-- The two artifacts of `build_tags`: the slugs listed on the tag-index
page (in page order) and the per-tag listing pages. -/
structure TagsOutput where
  tagIndex : List String
  tagPages : List (String × List Item)
  deriving DecidableEq

/-- Body of the `by_tags` loop of `build_tags` for one post: append the
post to the bucket of each of its normalized tags, in order. -/
def tagStep (m : List (String × List Item)) (p : Item) :
    List (String × List Item) :=
  p.tags.foldl (fun m t => addToBucket m (normalize_tag t) p) m

/-- Embedding of `build_tags` (site.py lines 234-259): the tag-index page
lists `normalize_tag` applied to each element of the sorted, de-duplicated
list of *original* tag values (`sorted(set(...))` runs before
normalization); the per-tag pages group posts under their normalized tag,
appending a post once per matching tag in index order. -/
def build_tags (index : List Item) : TagsOutput :=
  { tagIndex := (sortedUnique (allTags index)).map normalize_tag,
    tagPages := index.foldl tagStep [] }

/-- Configuration values read by the feed and sitemap builders:
`config["feeds"]["enabled"]`, `config["site"]["url"]`,
`config["site"]["title"]`, `config["site"]["author"]` and
`config["site"]["description"]`. -/
structure SiteConfig where
  feeds_enabled : Bool
  site_url : String
  site_title : String
  author : String
  description : String
  deriving DecidableEq

/-- One feed entry as filled in by `build_feeds`. -/
structure FeedEntry where
  entry_id : String
  title : String
  content : String
  description : String
  pubdate : Timestamp
  deriving DecidableEq

/-- One `fg.add_entry()` block of `build_feeds` (site.py lines 294-302):
`post["url"]` and `post["title"]` raise `KeyError` when the front matter
lacks the key; `fe.pubdate` requires a datetime, not a left-over string;
`description` falls back to `""` through `.get`. -/
def mkFeedEntry (cfg : SiteConfig) (p : Item) : Except String FeedEntry := do
  let url ← match p.url with
    | some u => Except.ok u
    | none => Except.error "KeyError: url"
  let title ← match p.title with
    | some t => Except.ok t
    | none => Except.error "KeyError: title"
  let d ← match p.date with
    | .ts t => Except.ok t
    | .text _ => Except.error "ValueError: pubdate requires a datetime"
  .ok { entry_id := cfg.site_url ++ url, title := title,
        content := p.html_content, description := p.description.getD "",
        pubdate := d }

/-- The `items` list of `build_feeds` (site.py lines 290-293): non-draft
posts sorted ascending by date. -/
def feedItems (index : List Item) : Except String (List Item) :=
  pySortByDate (index.filter (fun p => !p.draft))

/-- Embedding of `build_feeds` (site.py lines 262-307): `none` when feeds
are disabled in the configuration, otherwise the feed entries in feed
order (the same entry sequence is serialized to both RSS and Atom). -/
def build_feeds (cfg : SiteConfig) (index : List Item) :
    Except String (Option (List FeedEntry)) :=
  if !cfg.feeds_enabled then .ok none
  else do
    let items ← feedItems index
    let entries ← items.mapM (mkFeedEntry cfg)
    .ok (some entries)

/-- One `<url>` element of the sitemap. -/
structure SitemapEntry where
  loc : String
  lastmod : String
  deriving DecidableEq

/-- One `<url>` block of `build_sitemap` (site.py lines 319-322):
`post["url"]` raises `KeyError` when absent; `lastmod` formats
`post["date"]` with `strftime`. -/
def mkSitemapEntry (cfg : SiteConfig) (p : Item) : Except String SitemapEntry := do
  let url ← match p.url with
    | some u => Except.ok u
    | none => Except.error "KeyError: url"
  let d ← dateStrftime p.date fmtYMDdash
  .ok { loc := cfg.site_url ++ url, lastmod := d }

/-- Per-post body of the `build_sitemap` loop (site.py lines 316-322):
drafts are skipped, every other post appends one `<url>` entry. -/
def sitemapStep (cfg : SiteConfig) (acc : List SitemapEntry) (p : Item) :
    Except String (List SitemapEntry) :=
  if p.draft then .ok acc
  else do
    let e ← mkSitemapEntry cfg p
    .ok (acc ++ [e])

/-- Embedding of `build_sitemap` (site.py lines 310-329): the `<url>`
entries of the sitemap, in index order. -/
def build_sitemap (cfg : SiteConfig) (index : List Item) :
    Except String (List SitemapEntry) :=
  index.foldlM (sitemapStep cfg) []

/-! ## Concrete items and configurations used in the claim theorems -/

def c3Item : Item :=
  ⟨some "Old post", .text "sometime in 2019", [], false, none,
   some "/blog/old/", [], "<p>old</p>"⟩

def c7a : Item :=
  ⟨some "January post", .ts ⟨2024, 1, 5, 0⟩, [], false, none,
   some "/blog/jan/", [], "<p>jan</p>"⟩

def c7b : Item :=
  ⟨some "February post", .ts ⟨2024, 2, 1, 0⟩, [], false, none,
   some "/blog/feb/", [], "<p>feb</p>"⟩

def c7Index : List Item := [c7a, c7b]

def c6cfg : SiteConfig :=
  ⟨true, "https://blog.banderson443.me", "Firstname Lastname",
   "Firstname Lastname", "Personal blog and writings"⟩

def c6Post : Item :=
  ⟨some "Visible", .ts ⟨2024, 1, 5, 0⟩, [], false, none,
   some "/blog/visible/", [], "<p>v</p>"⟩

def c6Draft : Item :=
  ⟨some "Secret", .ts ⟨2024, 3, 1, 0⟩, [], true, none,
   some "/blog/secret/", [], "<p>s</p>"⟩

def c6Entry : FeedEntry :=
  ⟨"https://blog.banderson443.me/blog/visible/", "Visible", "<p>v</p>", "",
   ⟨2024, 1, 5, 0⟩⟩

def c6Sm : SitemapEntry :=
  ⟨"https://blog.banderson443.me/blog/visible/", "2024-01-05"⟩

def c9cfg : SiteConfig :=
  ⟨true, "https://blog.banderson443.me", "Firstname Lastname",
   "Firstname Lastname", "Personal blog and writings"⟩

def c9NoUrl : Item :=
  ⟨some "No explicit url", .ts ⟨2024, 4, 2, 0⟩, [], false, none,
   none, [], "<p>n</p>"⟩

def c8a : Item :=
  ⟨some "First discovered", .ts ⟨2024, 5, 1, 0⟩, [], false, none,
   some "/blog/first/", [], "a"⟩

def c8b : Item :=
  ⟨some "Second discovered", .ts ⟨2024, 5, 1, 0⟩, [], false, none,
   some "/blog/second/", [], "b"⟩

def c8c : Item :=
  ⟨some "Older", .ts ⟨2023, 12, 31, 0⟩, [], false, none,
   some "/blog/older/", [], "c"⟩

def c8d : Item :=
  ⟨some "Newer", .ts ⟨2024, 6, 1, 0⟩, [], true, none,
   some "/blog/newer-draft/", [], "d"⟩

def c8e : Item :=
  ⟨some "Newest", .ts ⟨2024, 7, 1, 0⟩, [], false, none,
   some "/blog/newest/", [], "e"⟩

def c4Item : Item :=
  ⟨some "Tagged twice", .ts ⟨2024, 1, 1, 0⟩, ["Go Lang", "go-lang"], false, none,
   some "/blog/tagged/", [], "x"⟩

def c4bItem : Item :=
  ⟨some "Witness post", .ts ⟨2024, 1, 2, 0⟩, ["Lean Lang"], false, none,
   some "/blog/w/", [], "y"⟩

/-! ## Dictionary and merge lemmas -/

theorem dlookup_nil (k : String) : dlookup [] k = none := rfl

theorem dlookup_cons (a : String) (b : Value) (u : List (String × Value)) (k : String) :
    dlookup ((a, b) :: u) k = if a == k then some b else dlookup u k := by
  simp only [dlookup, List.find?]
  split <;> simp_all

theorem dlookup_dset_self (d : List (String × Value)) (k : String) (v : Value) :
    dlookup (dset d k v) k = some v := by
  induction d with
  | nil => simp [dset, dlookup_cons]
  | cons e rest ih =>
    simp only [dset]
    split
    · simp [dlookup_cons]
    · rename_i h
      rcases e with ⟨a, b⟩
      rw [show ((a, b) :: dset rest k v) = ((a, b) :: dset rest k v) from rfl, dlookup_cons]
      simp only [beq_iff_eq] at h ⊢
      rw [if_neg h]
      exact ih

theorem dlookup_dset_ne (d : List (String × Value)) (k k' : String) (v : Value)
    (h : k' ≠ k) : dlookup (dset d k v) k' = dlookup d k' := by
  induction d with
  | nil => simp [dset, dlookup_cons, dlookup_nil, (Ne.symm h)]
  | cons e rest ih =>
    rcases e with ⟨a, b⟩
    simp only [dset]
    split
    · rename_i hh
      simp only [beq_iff_eq] at hh
      subst hh
      rw [dlookup_cons, dlookup_cons, if_neg (by simpa using Ne.symm h), if_neg (by simpa using Ne.symm h)]
    · rw [dlookup_cons, dlookup_cons]
      split
      · rfl
      · exact ih

theorem dlookup_none_of_not_mem (u : List (String × Value)) (k : String)
    (h : k ∉ u.map Prod.fst) : dlookup u k = none := by
  induction u with
  | nil => rfl
  | cons e rest ih =>
    rcases e with ⟨a, b⟩
    simp only [List.map_cons, List.mem_cons] at h
    push_neg at h
    rw [dlookup_cons, if_neg (by simpa using Ne.symm h.1)]
    exact ih h.2

theorem dupdate_nil (d : List (String × Value)) : dupdate d [] = d := rfl

theorem dupdate_cons (d : List (String × Value)) (a : String) (b : Value) (u : List (String × Value)) :
    dupdate d ((a, b) :: u) = dupdate (dset d a b) u := rfl

theorem dlookup_dupdate (u : List (String × Value)) :
    ∀ d, (u.map Prod.fst).Nodup → ∀ k,
    dlookup (dupdate d u) k =
      match dlookup u k with
      | some v => some v
      | none => dlookup d k := by
  induction u with
  | nil => intro d _ k; simp [dupdate_nil, dlookup_nil]
  | cons e rest ih =>
    rcases e with ⟨a, b⟩
    intro d hnd k
    simp only [List.map_cons, List.nodup_cons] at hnd
    rw [dupdate_cons, ih _ hnd.2, dlookup_cons]
    by_cases hk : a = k
    · subst hk
      rw [dlookup_none_of_not_mem rest a hnd.1]
      simp [dlookup_dset_self]
    · rw [if_neg (by simpa using hk)]
      cases dlookup rest k with
      | some v => simp
      | none => simp [dlookup_dset_ne _ _ _ _ (Ne.symm hk)]

theorem mergeConfig_cons_nonDict (cfg : List (String × Value)) (k : String) (v : Value)
    (rest : List (String × Value)) (hv : v.isDict = false) :
    mergeConfig cfg ((k, v) :: rest) = mergeConfig (dset cfg k v) rest := by
  cases v with
  | dict d => simp [Value.isDict] at hv
  | str s => rfl
  | int n => rfl
  | bool b => rfl

theorem mergeConfig_cons_dict (cfg : List (String × Value)) (k : String)
    (uv dv rest : List (String × Value))
    (h : dlookup cfg k = some (Value.dict dv)) :
    mergeConfig cfg ((k, Value.dict uv) :: rest) =
      mergeConfig (dset cfg k (Value.dict (dupdate dv uv))) rest := by
  simp only [mergeConfig, h]

theorem mergeConfig_go (user : List (String × Value)) :
    ∀ cfg : List (String × Value),
    (user.map Prod.fst).Nodup →
    (∀ e ∈ user,
      (e.2.isDict = true → ∃ dv, dlookup cfg e.1 = some (Value.dict dv)) ∧
      ((dlookup cfg e.1).isSome = true → e.2.isDict = true)) →
    ∃ c, mergeConfig cfg user = .ok c ∧
      (∀ k, dlookup user k = none → dlookup c k = dlookup cfg k) ∧
      (∀ k uv, dlookup user k = some (Value.dict uv) →
        ∃ dv, dlookup cfg k = some (Value.dict dv) ∧
          dlookup c k = some (Value.dict (dupdate dv uv))) ∧
      (∀ k v, dlookup user k = some v → v.isDict = false → dlookup c k = some v) := by
  induction user with
  | nil =>
    intro cfg _ _
    exact ⟨cfg, rfl, fun k _ => rfl, fun k uv h => by simp [dlookup_nil] at h,
      fun k v h _ => by simp [dlookup_nil] at h⟩
  | cons e rest ih =>
    rcases e with ⟨k₀, v₀⟩
    intro cfg hnd hcond
    simp only [List.map_cons, List.nodup_cons] at hnd
    have hne : ∀ e ∈ rest, e.1 ≠ k₀ := by
      intro e he heq
      exact hnd.1 (heq ▸ List.mem_map_of_mem Prod.fst he)
    by_cases hd : v₀.isDict = true
    · -- dict-valued user key
      obtain ⟨uv, rfl⟩ : ∃ uv, v₀ = Value.dict uv := by
        cases v₀ <;> simp [Value.isDict] at hd ⊢
      obtain ⟨dv, hdv⟩ := (hcond _ (List.mem_cons_self _ _)).1 rfl
      set cfg' := dset cfg k₀ (Value.dict (dupdate dv uv)) with hcfg'
      have hlook : ∀ k, k ≠ k₀ → dlookup cfg' k = dlookup cfg k := by
        intro k hk; exact dlookup_dset_ne _ _ _ _ hk
      have hcond' : ∀ e ∈ rest,
          (e.2.isDict = true → ∃ dv, dlookup cfg' e.1 = some (Value.dict dv)) ∧
          ((dlookup cfg' e.1).isSome = true → e.2.isDict = true) := by
        intro e he
        rw [hlook e.1 (hne e he)]
        exact hcond e (List.mem_cons_of_mem _ he)
      obtain ⟨c, hc, hp1, hp2, hp3⟩ := ih cfg' hnd.2 hcond'
      refine ⟨c, ?_, ?_, ?_, ?_⟩
      · rw [mergeConfig_cons_dict cfg k₀ uv dv rest hdv]; exact hc
      · intro k hk
        rw [dlookup_cons] at hk
        by_cases hkk : k₀ = k
        · simp [hkk] at hk
        · rw [if_neg (by simpa using hkk)] at hk
          rw [hp1 k hk, hlook k (Ne.symm hkk)]
      · intro k uv' hk
        rw [dlookup_cons] at hk
        by_cases hkk : k₀ = k
        · subst hkk
          simp only [beq_self_eq_true, if_true] at hk
          have : uv' = uv := by
            cases hk
            rfl
          subst this
          refine ⟨dv, hdv, ?_⟩
          have hrest : dlookup rest k₀ = none :=
            dlookup_none_of_not_mem _ _ hnd.1
          rw [hp1 k₀ hrest, hcfg', dlookup_dset_self]
        · rw [if_neg (by simpa using hkk)] at hk
          obtain ⟨dv', h1, h2⟩ := hp2 k uv' hk
          rw [hlook k (Ne.symm hkk)] at h1
          exact ⟨dv', h1, h2⟩
      · intro k v hk hv
        rw [dlookup_cons] at hk
        by_cases hkk : k₀ = k
        · subst hkk
          simp only [beq_self_eq_true, if_true] at hk
          cases hk
          simp [Value.isDict] at hv
        · rw [if_neg (by simpa using hkk)] at hk
          exact hp3 k v hk hv
    · -- scalar user key: the key cannot be present in cfg
      have hnone : dlookup cfg k₀ = none := by
        by_contra hh
        have : (dlookup cfg k₀).isSome = true := by
          cases h : dlookup cfg k₀
          · simp [h] at hh
          · simp
        exact (by simp [hd] : ¬ v₀.isDict = true)
          ((hcond _ (List.mem_cons_self _ _)).2 this)
      set cfg' := dset cfg k₀ v₀ with hcfg'
      have hlook : ∀ k, k ≠ k₀ → dlookup cfg' k = dlookup cfg k := by
        intro k hk; exact dlookup_dset_ne _ _ _ _ hk
      have hcond' : ∀ e ∈ rest,
          (e.2.isDict = true → ∃ dv, dlookup cfg' e.1 = some (Value.dict dv)) ∧
          ((dlookup cfg' e.1).isSome = true → e.2.isDict = true) := by
        intro e he
        rw [hlook e.1 (hne e he)]
        exact hcond e (List.mem_cons_of_mem _ he)
      obtain ⟨c, hc, hp1, hp2, hp3⟩ := ih cfg' hnd.2 hcond'
      refine ⟨c, ?_, ?_, ?_, ?_⟩
      · rw [mergeConfig_cons_nonDict cfg k₀ v₀ rest (by simpa using hd)]; exact hc
      · intro k hk
        rw [dlookup_cons] at hk
        by_cases hkk : k₀ = k
        · simp [hkk] at hk
        · rw [if_neg (by simpa using hkk)] at hk
          rw [hp1 k hk, hlook k (Ne.symm hkk)]
      · intro k uv' hk
        rw [dlookup_cons] at hk
        by_cases hkk : k₀ = k
        · subst hkk
          simp only [beq_self_eq_true, if_true] at hk
          cases hk
          simp [Value.isDict] at hd
        · rw [if_neg (by simpa using hkk)] at hk
          obtain ⟨dv', h1, h2⟩ := hp2 k uv' hk
          rw [hlook k (Ne.symm hkk)] at h1
          exact ⟨dv', h1, h2⟩
      · intro k v hk hv
        rw [dlookup_cons] at hk
        by_cases hkk : k₀ = k
        · subst hkk
          simp only [beq_self_eq_true, if_true] at hk
          cases hk
          have hrest : dlookup rest k₀ = none :=
            dlookup_none_of_not_mem _ _ hnd.1
          rw [hp1 k₀ hrest, hcfg', dlookup_dset_self]
        · rw [if_neg (by simpa using hkk)] at hk
          exact hp3 k v hk hv

theorem mem_of_dlookup_eq_some (u : List (String × Value)) (k : String) (v : Value)
    (h : dlookup u k = some v) : (k, v) ∈ u := by
  simp only [dlookup] at h
  cases hf : u.find? (fun e => e.1 == k) with
  | none => rw [hf] at h; simp at h
  | some e =>
    rw [hf] at h
    simp only [Option.map_some'] at h
    have h1 := List.find?_some hf
    have h2 : e ∈ u := List.mem_of_find?_eq_some hf
    have : e = (k, v) := by
      rcases e with ⟨a, b⟩
      simp only [beq_iff_eq] at h1
      cases h
      cases h1
      rfl
    rwa [this] at h2

theorem DEFAULT_CONFIG_sections_are_dicts (k : String) :
    (dlookup DEFAULT_CONFIG k).isSome = true →
    ∃ dv, dlookup DEFAULT_CONFIG k = some (Value.dict dv) := by
  simp only [DEFAULT_CONFIG, dlookup_cons]
  split_ifs <;> simp [dlookup_nil]

/-- C2 (amended): for every user configuration whose top-level and section
mappings have unique keys, in which every mapping-valued top-level key
names a section present in the defaults and every top-level key naming a
default section carries a mapping value, the merge of `load_config`
succeeds and: top-level default sections absent from the user file are
returned unchanged, default keys inside a merged section that are absent
from the user section retain their default values, user-supplied section
keys override the defaults, and scalar user keys are stored as given.
Without the shape hypothesis the statement is false, as witnessed by
the counterexample theorem for this claim. -/
theorem load_config_merge_preserves_defaults (user : List (String × Value))
    (hnd : (user.map Prod.fst).Nodup)
    (hinner : ∀ e ∈ user, ∀ uv, e.2 = Value.dict uv → (uv.map Prod.fst).Nodup)
    (hshape : ∀ e ∈ user,
      (e.2.isDict = true → (dlookup DEFAULT_CONFIG e.1).isSome = true) ∧
      ((dlookup DEFAULT_CONFIG e.1).isSome = true → e.2.isDict = true)) :
    (mergeConfig DEFAULT_CONFIG user).isOk = true ∧
    ∀ c, mergeConfig DEFAULT_CONFIG user = .ok c →
      (∀ k, dlookup user k = none → dlookup c k = dlookup DEFAULT_CONFIG k) ∧
      (∀ k uv ik, dlookup user k = some (Value.dict uv) → dlookup uv ik = none →
          sectionLookup c k ik = sectionLookup DEFAULT_CONFIG k ik) ∧
      (∀ k uv ik v, dlookup user k = some (Value.dict uv) → dlookup uv ik = some v →
          sectionLookup c k ik = some v) ∧
      (∀ k v, dlookup user k = some v → v.isDict = false → dlookup c k = some v) := by
  have hcond : ∀ e ∈ user,
      (e.2.isDict = true → ∃ dv, dlookup DEFAULT_CONFIG e.1 = some (Value.dict dv)) ∧
      ((dlookup DEFAULT_CONFIG e.1).isSome = true → e.2.isDict = true) := by
    intro e he
    exact ⟨fun h => DEFAULT_CONFIG_sections_are_dicts e.1 ((hshape e he).1 h),
      (hshape e he).2⟩
  obtain ⟨c, hc, hp1, hp2, hp3⟩ := mergeConfig_go user DEFAULT_CONFIG hnd hcond
  constructor
  · rw [hc]; rfl
  · intro c' hc'
    rw [hc] at hc'
    cases hc'
    refine ⟨hp1, ?_, ?_, hp3⟩
    · intro k uv ik hu hik
      obtain ⟨dv, hdv, hck⟩ := hp2 k uv hu
      have hnduv : (uv.map Prod.fst).Nodup :=
        hinner (k, Value.dict uv) (mem_of_dlookup_eq_some user k _ hu) uv rfl
      simp only [sectionLookup, hck, hdv]
      rw [dlookup_dupdate uv dv hnduv ik, hik]
    · intro k uv ik v hu hik
      obtain ⟨dv, hdv, hck⟩ := hp2 k uv hu
      have hnduv : (uv.map Prod.fst).Nodup :=
        hinner (k, Value.dict uv) (mem_of_dlookup_eq_some user k _ hu) uv rfl
      simp only [sectionLookup, hck]
      rw [dlookup_dupdate uv dv hnduv ik, hik]

theorem c2_user_witness :
    (mergeConfig DEFAULT_CONFIG c2User).map (fun c => sectionLookup c "site" "description")
      = .ok (some (Value.str "Personal blog and writings")) ∧
    (mergeConfig DEFAULT_CONFIG c2User).map (fun c => sectionLookup c "site" "title")
      = .ok (some (Value.str "My Blog")) ∧
    (mergeConfig DEFAULT_CONFIG c2User).map (fun c => dlookup c "build")
      = .ok (dlookup DEFAULT_CONFIG "build") := by
  have hinner : ∀ e ∈ c2User, ∀ uv, e.2 = Value.dict uv → (uv.map Prod.fst).Nodup := by
    intro e he uv huv
    rcases List.mem_cons.mp he with rfl | he2
    · cases huv; decide
    · rcases List.mem_cons.mp he2 with rfl | he3
      · exact Value.noConfusion huv
      · simp at he3
  have hshape : ∀ e ∈ c2User,
      (e.2.isDict = true → (dlookup DEFAULT_CONFIG e.1).isSome = true) ∧
      ((dlookup DEFAULT_CONFIG e.1).isSome = true → e.2.isDict = true) := by
    intro e he
    rcases List.mem_cons.mp he with rfl | he2
    · exact ⟨fun _ => rfl, fun _ => rfl⟩
    · rcases List.mem_cons.mp he2 with rfl | he3
      · refine ⟨fun h => by simp [Value.isDict] at h, fun h => by simp [dlookup_cons, DEFAULT_CONFIG, dlookup_nil] at h⟩
      · simp at he3
  have h := load_config_merge_preserves_defaults c2User (by decide) hinner hshape
  rcases hok : mergeConfig DEFAULT_CONFIG c2User with e | c
  · rw [hok] at h; exact absurd h.1 (by simp [Except.isOk, Except.toBool])
  · obtain ⟨hp1, hp2, hp3, hp4⟩ := h.2 c hok
    refine ⟨?_, ?_, ?_⟩
    · rw [show Except.map (fun c => sectionLookup c "site" "description") (Except.ok c)
          = Except.ok (sectionLookup c "site" "description") from rfl]
      rw [hp2 "site" [("title", Value.str "My Blog")] "description" rfl rfl]
      rfl
    · rw [show Except.map (fun c => sectionLookup c "site" "title") (Except.ok c)
          = Except.ok (sectionLookup c "site" "title") from rfl]
      rw [hp3 "site" [("title", Value.str "My Blog")] "title" (Value.str "My Blog") rfl rfl]
    · rw [show Except.map (fun c => dlookup c "build") (Except.ok c)
          = Except.ok (dlookup c "build") from rfl]
      rw [hp1 "build" rfl]


/-! ## Claim theorems: C1, C2, C10 -/

/-- C1: the claim says files under `blog/` render with the `blog.html` post
template.  The code disagrees: `get_template_name` computes the first path
segment with `str.strip(content_dir)`, which removes *characters* of the
content root from both ends rather than the leading directory, so for the
default content root `content` every file path `content/...` is left with a
leading `/`, the first segment is the empty string, and the default
`page.html` is selected — the `blog` entry of the mapping table is dead
code.  This theorem evaluates the embedded code at the failing input. -/
theorem get_template_name_blog_file_gets_default :
    get_template_name "content/blog/post.md" "content" = "page.html" ∧
    get_template_name "content/pages/about.md" "content" = "page.html" ∧
    ("page.html" : String) ≠ "blog.html" :=
  ⟨rfl, rfl, by decide⟩

/-- C2 counterexample: the user file `build: 5` parses successfully and
merges without error, yet the default key `posts_per_page` inside the
`build` section — a default key absent from the user file — does not
retain its built-in default value: the whole `build` section is replaced
by the scalar `5`, so the claim as stated is false. -/
theorem mergeConfig_scalar_section_loses_inner_defaults :
    (mergeConfig DEFAULT_CONFIG [("build", Value.int 5)]).map
        (fun c => sectionLookup c "build" "posts_per_page") = .ok none ∧
    sectionLookup DEFAULT_CONFIG "build" "posts_per_page" = some (Value.int 20) :=
  ⟨rfl, rfl⟩

/-- C10: `load_config` merging a user file that overrides keys inside a
section mutates the module-level `DEFAULT_CONFIG` nested section mappings
(the shallow `dict.copy()` shares the section objects), so a later call
that finds no config file returns defaults containing the earlier call's
override `posts_per_page = 5` instead of the built-in `20`. -/
theorem load_config_mutates_module_defaults :
    sectionLookup DEFAULT_CONFIG "build" "posts_per_page" = some (Value.int 20) ∧
    sectionLookup (load_config_model DEFAULT_CONFIG (some c10User)).2 "build" "posts_per_page"
      = some (Value.int 5) ∧
    (load_config_model ((load_config_model DEFAULT_CONFIG (some c10User)).2) none).1
      = .ok ((load_config_model DEFAULT_CONFIG (some c10User)).2) :=
  ⟨rfl, rfl, rfl⟩


/-! ## Lemmas and claim theorems for `normalize_tag` (C5) -/

theorem toNat_Char_ofNat (n : Nat) (h : n < 55296) : (Char.ofNat n).toNat = n := by
  unfold Char.ofNat
  rw [dif_pos (Or.inl h)]
  rfl

theorem char_eq_of_toNat (c : Char) (n : Nat) (h : c.toNat = n) :
    c = Char.ofNat n := by
  rw [← h, Char.ofNat_toNat]

theorem tame_lt (c : Char) (h : tameChar c = true) : c.toNat < 128 := by
  simp only [tameChar, Bool.or_eq_true, Bool.and_eq_true, decide_eq_true_eq,
    beq_iff_eq] at h
  omega

theorem tame_not_upper (c : Char) (h : tameChar c = true) :
    ¬(65 ≤ c.toNat ∧ c.toNat ≤ 90) := by
  simp only [tameChar, Bool.or_eq_true, Bool.and_eq_true, decide_eq_true_eq,
    beq_iff_eq] at h
  omega

theorem nfkdAscii_of_ascii (c : Char) (h : c.toNat < 128) : nfkdAscii c = [c] := by
  unfold nfkdAscii
  rw [if_pos h]

theorem nfkdAscii_all_ascii (c : Char) : ∀ d ∈ nfkdAscii c, d.toNat < 128 := by
  intro d hd
  unfold nfkdAscii at hd
  split at hd
  · rename_i h
    simp only [List.mem_singleton] at hd
    subst hd
    exact h
  · split at hd <;> simp_all

theorem asciiLower_toNat (c : Char) :
    (asciiLower c).toNat =
      if 65 ≤ c.toNat ∧ c.toNat ≤ 90 then c.toNat + 32 else c.toNat := by
  unfold asciiLower
  split
  · rename_i h
    simp only [Bool.and_eq_true, decide_eq_true_eq] at h
    rw [if_pos h, toNat_Char_ofNat _ (by omega)]
  · rename_i h
    simp only [Bool.and_eq_true, decide_eq_true_eq, not_and, Nat.not_le] at h
    rw [if_neg (by omega)]

theorem asciiLower_eq_self (c : Char) (h : ¬(65 ≤ c.toNat ∧ c.toNat ≤ 90)) :
    asciiLower c = c := by
  unfold asciiLower
  rw [if_neg (by simpa using (by omega : ¬(65 ≤ c.toNat ∧ c.toNat ≤ 90)))]

theorem tame_asciiLower (c : Char) (h : tameChar c = true) : asciiLower c = c :=
  asciiLower_eq_self c (tame_not_upper c h)

theorem tame_keep (c : Char) (h : tameChar c = true) : keepChar c = true := by
  simp only [tameChar, Bool.or_eq_true, Bool.and_eq_true, decide_eq_true_eq,
    beq_iff_eq] at h
  simp only [keepChar, isWordChar, isPySpace, Bool.or_eq_true, Bool.and_eq_true,
    decide_eq_true_eq, beq_iff_eq]
  omega

theorem tame_not_hs_space (c : Char) (h : tameChar c = true) :
    isPySpace c = false := by
  simp only [tameChar, Bool.or_eq_true, Bool.and_eq_true, decide_eq_true_eq,
    beq_iff_eq] at h
  simp only [isPySpace, Bool.or_eq_false_iff, beq_eq_false_iff_ne, ne_eq]
  omega

theorem tame_hs_eq_dash (c : Char) (ht : tameChar c = true) (hh : isHS c = true) :
    c = '-' := by
  simp only [tameChar, Bool.or_eq_true, Bool.and_eq_true, decide_eq_true_eq,
    beq_iff_eq] at ht
  simp only [isHS, isPySpace, Bool.or_eq_true, beq_iff_eq] at hh
  have h45 : c.toNat = 45 := by omega
  have := char_eq_of_toNat c 45 h45
  rw [this]

theorem mem_collapseAux (l : List Char) :
    ∀ b d, d ∈ collapseAux b l → d = '-' ∨ (d ∈ l ∧ isHS d = false) := by
  induction l with
  | nil => intro b d hd; simp [collapseAux] at hd
  | cons c rest ih =>
    intro b d hd
    simp only [collapseAux] at hd
    split at hd
    · rw [List.mem_append] at hd
      rcases hd with h | h
      · left
        cases b
        · simpa using h
        · simp at h
      · rcases ih true d h with h' | h'
        · exact Or.inl h'
        · exact Or.inr ⟨List.mem_cons_of_mem _ h'.1, h'.2⟩
    · rename_i hns
      rcases List.mem_cons.mp hd with rfl | h
      · exact Or.inr ⟨List.mem_cons_self _ _, by simpa using hns⟩
      · rcases ih false d h with h' | h'
        · exact Or.inl h'
        · exact Or.inr ⟨List.mem_cons_of_mem _ h'.1, h'.2⟩

theorem collapseAux_chain (l : List Char) :
    (∀ b, List.Chain' noAdjR (collapseAux b l)) ∧
      (∀ d, (collapseAux true l).head? = some d → isHS d = false) := by
  induction l with
  | nil => exact ⟨fun b => List.chain'_nil, fun d hd => by simp [collapseAux] at hd⟩
  | cons c rest ih =>
    constructor
    · intro b
      simp only [collapseAux]
      split
      · cases b
        · rw [show (if (false : Bool) then ([] : List Char) else ['-']) = ['-'] from rfl,
            List.singleton_append]
          rw [List.chain'_cons']
          refine ⟨?_, ih.1 true⟩
          intro d hd
          have := ih.2 d hd
          simp only [noAdjR, this]
          tauto
        · simpa using ih.1 true
      · rename_i hns
        rw [List.chain'_cons']
        refine ⟨?_, ih.1 false⟩
        intro d _
        simp only [noAdjR]
        rw [show isHS c = false from by simpa using hns]
        tauto
    · intro d hd
      simp only [collapseAux] at hd
      split at hd
      · simpa using ih.2 d (by simpa using hd)
      · rename_i hns
        simp only [List.head?_cons, Option.some_inj] at hd
        subst hd
        simpa using hns

theorem collapseAux_eq_self (l : List Char)
    (hh : ∀ c ∈ l, isHS c = true → c = '-')
    (hch : List.Chain' noAdjR l) :
    collapseAux false l = l ∧
      ((∀ d, l.head? = some d → isHS d = false) → collapseAux true l = l) := by
  induction l with
  | nil => exact ⟨rfl, fun _ => rfl⟩
  | cons c rest ih =>
    have hch' : List.Chain' noAdjR rest := hch.tail
    have hlink : ∀ d, rest.head? = some d → noAdjR c d := by
      intro d hd
      exact (List.chain'_cons'.mp hch).1 d hd
    have hh' : ∀ x ∈ rest, isHS x = true → x = '-' :=
      fun x hx => hh x (List.mem_cons_of_mem _ hx)
    obtain ⟨ih1, ih2⟩ := ih hh' hch'
    by_cases hc : isHS c = true
    · have hcd : c = '-' := hh c (List.mem_cons_self _ _) hc
      have hresthead : ∀ d, rest.head? = some d → isHS d = false := by
        intro d hd
        have h2 := hlink d hd
        simp only [noAdjR, hc, true_and] at h2
        simpa using h2
      constructor
      · simp only [collapseAux, if_pos hc, if_neg (by simp : ¬(false = true))]
        rw [ih2 hresthead, hcd]
        rfl
      · intro hhead
        have := hhead c (by simp)
        rw [this] at hc
        simp at hc
    · constructor
      · simp only [collapseAux, if_neg hc]
        rw [ih1]
      · intro _
        simp only [collapseAux, if_neg hc]
        rw [ih1]

theorem head?_dropWhile (p : Char → Bool) (l : List Char) :
    ∀ c, (l.dropWhile p).head? = some c → p c = false := by
  induction l with
  | nil => intro c hc; simp at hc
  | cons a t ih =>
    intro c hc
    rw [List.dropWhile_cons] at hc
    split at hc
    · exact ih c hc
    · rename_i h
      simp only [List.head?_cons, Option.some_inj] at hc
      subst hc
      simpa using h

theorem mem_dropWhile_sub (p : Char → Bool) (l : List Char) :
    ∀ c ∈ l.dropWhile p, c ∈ l := by
  induction l with
  | nil => simp
  | cons a t ih =>
    intro c hc
    rw [List.dropWhile_cons] at hc
    split at hc
    · exact List.mem_cons_of_mem _ (ih c hc)
    · exact hc

theorem getLast?_dropWhile (p : Char → Bool) (l : List Char)
    (hne : l.dropWhile p ≠ []) : (l.dropWhile p).getLast? = l.getLast? := by
  induction l with
  | nil => simp at hne
  | cons a t ih =>
    rw [List.dropWhile_cons]
    rw [List.dropWhile_cons] at hne
    split
    · rename_i h
      rw [if_pos h] at hne
      cases t with
      | nil => simp [List.dropWhile] at hne
      | cons b u =>
        rw [ih hne, List.getLast?_cons_cons]
    · rfl

theorem chain'_dropWhile (R : Char → Char → Prop) (p : Char → Bool) (l : List Char)
    (h : List.Chain' R l) : List.Chain' R (l.dropWhile p) := by
  induction l with
  | nil => simp
  | cons a t ih =>
    rw [List.dropWhile_cons]
    split
    · exact ih h.tail
    · exact h

theorem chain'_noAdjR_reverse (l : List Char) (h : List.Chain' noAdjR l) :
    List.Chain' noAdjR l.reverse := by
  rw [List.chain'_reverse]
  refine h.imp ?_
  intro a b hab
  simp only [flip, noAdjR] at hab ⊢
  tauto

theorem dropWhile_eq_self_of_head (p : Char → Bool) (l : List Char)
    (h : ∀ c, l.head? = some c → p c = false) : l.dropWhile p = l := by
  cases l with
  | nil => rfl
  | cons a t =>
    rw [List.dropWhile_cons, if_neg]
    simp [h a rfl]

theorem pyStripChars_eq_self (cs : List Char) (l : List Char)
    (h1 : ∀ c, l.head? = some c → cs.contains c = false)
    (h2 : ∀ c, l.getLast? = some c → cs.contains c = false) :
    pyStripChars cs l = l := by
  unfold pyStripChars
  rw [dropWhile_eq_self_of_head _ _ h1]
  rw [dropWhile_eq_self_of_head _ _
    (fun c hc => h2 c (by rwa [List.head?_reverse] at hc))]
  exact List.reverse_reverse l

theorem mem_pyStripChars (cs : List Char) (l : List Char) :
    ∀ c ∈ pyStripChars cs l, c ∈ l := by
  intro c hc
  unfold pyStripChars at hc
  rw [List.mem_reverse] at hc
  have := mem_dropWhile_sub _ _ c hc
  rw [List.mem_reverse] at this
  exact mem_dropWhile_sub _ _ c this

theorem chain'_pyStripChars (cs : List Char) (l : List Char)
    (h : List.Chain' noAdjR l) : List.Chain' noAdjR (pyStripChars cs l) := by
  unfold pyStripChars
  exact chain'_noAdjR_reverse _ (chain'_dropWhile _ _ _
    (chain'_noAdjR_reverse _ (chain'_dropWhile _ _ _ h)))

theorem pyStripChars_getLast (cs : List Char) (l : List Char) :
    ∀ c, (pyStripChars cs l).getLast? = some c → cs.contains c = false := by
  intro c hc
  unfold pyStripChars at hc
  rw [List.getLast?_reverse] at hc
  exact head?_dropWhile _ _ c hc

theorem pyStripChars_head (cs : List Char) (l : List Char) :
    ∀ c, (pyStripChars cs l).head? = some c → cs.contains c = false := by
  intro c hc
  unfold pyStripChars at hc
  rw [List.head?_reverse] at hc
  have hne : (((l.dropWhile fun c => cs.contains c).reverse).dropWhile
      fun c => cs.contains c) ≠ [] := by
    intro hnil
    rw [hnil] at hc
    simp at hc
  rw [getLast?_dropWhile _ _ hne, List.getLast?_reverse] at hc
  exact head?_dropWhile _ _ c hc

theorem flatMap_eq_self (l : List Char) (f : Char → List Char)
    (h : ∀ c ∈ l, f c = [c]) : l.flatMap f = l := by
  induction l with
  | nil => rfl
  | cons a t ih =>
    rw [List.flatMap_cons, h a (List.mem_cons_self _ _),
      ih (fun c hc => h c (List.mem_cons_of_mem _ hc))]
    rfl

theorem v3_stage_props (l : List Char) :
    ∀ c ∈ ((l.flatMap nfkdAscii).map asciiLower).filter keepChar,
      keepChar c = true ∧ c.toNat < 128 ∧ ¬(65 ≤ c.toNat ∧ c.toNat ≤ 90) := by
  intro c hc
  rw [List.mem_filter] at hc
  obtain ⟨hc1, hkeep⟩ := hc
  rw [List.mem_map] at hc1
  obtain ⟨d, hd, rfl⟩ := hc1
  rw [List.mem_flatMap] at hd
  obtain ⟨e, he, hde⟩ := hd
  have hascii := nfkdAscii_all_ascii e d hde
  refine ⟨hkeep, ?_, ?_⟩
  · rw [asciiLower_toNat]; split <;> omega
  · rw [asciiLower_toNat]; split <;> omega

theorem slugPipeline_invariants (l : List Char) :
    (∀ c ∈ slugPipeline l, tameChar c = true) ∧
    List.Chain' noAdjR (slugPipeline l) ∧
    (∀ c, (slugPipeline l).head? = some c → (['-', '_'].contains c) = false) ∧
    (∀ c, (slugPipeline l).getLast? = some c → (['-', '_'].contains c) = false) := by
  have hv3 := v3_stage_props l
  have htame : ∀ c ∈ collapseAux false (((l.flatMap nfkdAscii).map asciiLower).filter keepChar),
      tameChar c = true := by
    intro c hc
    rcases mem_collapseAux _ false c hc with rfl | ⟨hmem, hns⟩
    · decide
    · obtain ⟨hkeep, hlt, hup⟩ := hv3 c hmem
      simp only [keepChar, isWordChar, isPySpace, Bool.or_eq_true, Bool.and_eq_true,
        decide_eq_true_eq, beq_iff_eq] at hkeep
      simp only [isHS, isPySpace, Bool.or_eq_false_iff, beq_eq_false_iff_ne, ne_eq] at hns
      simp only [tameChar, Bool.or_eq_true, Bool.and_eq_true, decide_eq_true_eq, beq_iff_eq]
      omega
  have hchain := (collapseAux_chain (((l.flatMap nfkdAscii).map asciiLower).filter keepChar)).1 false
  refine ⟨?_, ?_, ?_, ?_⟩
  · intro c hc
    exact htame c (mem_pyStripChars _ _ c hc)
  · exact chain'_pyStripChars _ _ hchain
  · exact pyStripChars_head _ _
  · exact pyStripChars_getLast _ _

theorem slugPipeline_fixed (l : List Char)
    (ht : ∀ c ∈ l, tameChar c = true)
    (hch : List.Chain' noAdjR l)
    (hh : ∀ c, l.head? = some c → (['-', '_'].contains c) = false)
    (hl : ∀ c, l.getLast? = some c → (['-', '_'].contains c) = false) :
    slugPipeline l = l := by
  unfold slugPipeline
  rw [flatMap_eq_self l nfkdAscii
    (fun c hc => nfkdAscii_of_ascii c (tame_lt c (ht c hc)))]
  rw [show l.map asciiLower = l from by
    rw [List.map_congr_left (fun c hc => tame_asciiLower c (ht c hc))]
    exact List.map_id l]
  rw [List.filter_eq_self.mpr (fun c hc => tame_keep c (ht c hc))]
  rw [(collapseAux_eq_self l (fun c hc => tame_hs_eq_dash c (ht c hc)) hch).1]
  exact pyStripChars_eq_self _ _ hh hl

theorem map_asciiLower_flatMap (l : List Char) :
    (l.flatMap nfkdAscii).map asciiLower = l.flatMap charFold := by
  induction l with
  | nil => rfl
  | cons a t ih =>
    rw [List.flatMap_cons, List.flatMap_cons, List.map_append, ih]
    rfl

theorem flatMap_eq_flatten_map (l : List Char) (f : Char → List Char) :
    l.flatMap f = (l.map f).flatten := by
  induction l with
  | nil => rfl
  | cons a t ih => rw [List.flatMap_cons, List.map_cons, List.flatten_cons, ih]

/-- C5 claim theorem: `normalize_tag` is idempotent, and two tags whose
characters fold to the same base letters (equal up to letter case and
accents) normalize to the same slug. -/
theorem normalize_tag_idempotent_and_case_accent (s t : String) :
    normalize_tag (normalize_tag s) = normalize_tag s ∧
    (s.data.map charFold = t.data.map charFold →
      normalize_tag s = normalize_tag t) := by
  constructor
  · obtain ⟨h1, h2, h3, h4⟩ := slugPipeline_invariants s.data
    show (⟨slugPipeline (String.data ⟨slugPipeline s.data⟩)⟩ : String) = ⟨slugPipeline s.data⟩
    rw [show (String.data ⟨slugPipeline s.data⟩) = slugPipeline s.data from rfl]
    rw [slugPipeline_fixed _ h1 h2 h3 h4]
  · intro hf
    show (⟨slugPipeline s.data⟩ : String) = ⟨slugPipeline t.data⟩
    unfold slugPipeline
    rw [map_asciiLower_flatMap, map_asciiLower_flatMap,
      flatMap_eq_flatten_map, flatMap_eq_flatten_map, hf]

theorem normalize_tag_c5_witness :
    normalize_tag (normalize_tag "Crème Brûlée") = normalize_tag "Crème Brûlée" ∧
    normalize_tag "Crème Brûlée" = normalize_tag "creme brulee" :=
  ⟨(normalize_tag_idempotent_and_case_accent "Crème Brûlée" "creme brulee").1,
   (normalize_tag_idempotent_and_case_accent "Crème Brûlée" "creme brulee").2 rfl⟩

/-! ## Lemmas and claim theorems for the build pipeline (C3, C4, C6-C9) -/

theorem Timestamp.leb_iff (a b : Timestamp) :
    Timestamp.leb a b = true ↔
      (a.year < b.year ∨ (a.year = b.year ∧ (a.month < b.month ∨ (a.month = b.month ∧
        (a.day < b.day ∨ (a.day = b.day ∧ a.tod ≤ b.tod)))))) := by
  simp [Timestamp.leb]

theorem Timestamp.leb_total (a b : Timestamp) :
    Timestamp.leb a b = true ∨ Timestamp.leb b a = true := by
  rw [Timestamp.leb_iff, Timestamp.leb_iff]
  omega

theorem Timestamp.leb_trans (a b c : Timestamp)
    (h1 : Timestamp.leb a b = true) (h2 : Timestamp.leb b c = true) :
    Timestamp.leb a c = true := by
  rw [Timestamp.leb_iff] at h1 h2 ⊢
  omega

theorem Timestamp.leb_antisymm (a b : Timestamp)
    (h1 : Timestamp.leb a b = true) (h2 : Timestamp.leb b a = true) : a = b := by
  rcases a with ⟨y1, m1, d1, t1⟩
  rcases b with ⟨y2, m2, d2, t2⟩
  rw [Timestamp.leb_iff] at h1 h2
  simp only [Timestamp.mk.injEq]
  simp only at h1 h2
  omega

instance itemDateLe.total : IsTotal Item itemDateLe :=
  ⟨fun a b => Timestamp.leb_total (dateKeyTs a) (dateKeyTs b)⟩

instance itemDateLe.trans : IsTrans Item itemDateLe :=
  ⟨fun a b c => Timestamp.leb_trans (dateKeyTs a) (dateKeyTs b) (dateKeyTs c)⟩

instance itemDateGe.total : IsTotal Item itemDateGe :=
  ⟨fun a b => Timestamp.leb_total (dateKeyTs b) (dateKeyTs a)⟩

instance itemDateGe.trans : IsTrans Item itemDateGe :=
  ⟨fun a b c h1 h2 => Timestamp.leb_trans (dateKeyTs c) (dateKeyTs b) (dateKeyTs a) h2 h1⟩

theorem sorted_of_length_le_one {r : Item → Item → Prop} (l : List Item)
    (h : l.length ≤ 1) : l.Sorted r := by
  cases l with
  | nil => exact List.sorted_nil
  | cons a t =>
    cases t with
    | nil => exact List.sorted_singleton a
    | cons b u => simp at h

theorem pySortByDateRev_ok_of_ts (l : List Item)
    (hts : l.all (fun p => p.date.isTs) = true) :
    ∃ m, pySortByDateRev l = .ok m ∧ m.Perm l ∧ m.Sorted itemDateGe := by
  unfold pySortByDateRev
  by_cases hlen : l.length ≤ 1
  · exact ⟨l, by rw [if_pos hlen], List.Perm.refl l, sorted_of_length_le_one l hlen⟩
  · rw [if_neg hlen, if_pos hts]
    exact ⟨_, rfl, List.perm_insertionSort itemDateGe l,
      List.sorted_insertionSort itemDateGe l⟩

theorem pySortByDate_ok_of_ts (l : List Item)
    (hts : l.all (fun p => p.date.isTs) = true) :
    ∃ m, pySortByDate l = .ok m ∧ m.Perm l ∧ m.Sorted itemDateLe := by
  unfold pySortByDate
  by_cases hlen : l.length ≤ 1
  · exact ⟨l, by rw [if_pos hlen], List.Perm.refl l, sorted_of_length_le_one l hlen⟩
  · rw [if_neg hlen, if_pos hts]
    exact ⟨_, rfl, List.perm_insertionSort itemDateLe l,
      List.sorted_insertionSort itemDateLe l⟩

theorem foldlM_error_of_mem {α β : Type} (f : β → α → Except String β)
    (l : List α) (x : α) (hx : x ∈ l)
    (hf : ∀ b, ∃ e, f b x = .error e) :
    ∀ b, ∃ e, l.foldlM f b = .error e := by
  induction l with
  | nil => simp at hx
  | cons a t ih =>
    intro b
    rw [List.foldlM_cons]
    rcases List.mem_cons.mp hx with rfl | hmem
    · obtain ⟨e, he⟩ := hf b
      rw [he]
      exact ⟨e, rfl⟩
    · cases hfa : f b a with
      | error e => exact ⟨e, rfl⟩
      | ok b2 =>
        obtain ⟨e, he⟩ := ih hmem b2
        exact ⟨e, he⟩

theorem mapM_error_of_mem {α β : Type} (f : α → Except String β)
    (l : List α) (x : α) (hx : x ∈ l)
    (hf : ∃ e, f x = .error e) :
    ∃ e, l.mapM f = .error e := by
  induction l with
  | nil => simp at hx
  | cons a t ih =>
    rw [List.mapM_cons]
    rcases List.mem_cons.mp hx with rfl | hmem
    · obtain ⟨e, he⟩ := hf
      rw [he]
      exact ⟨e, rfl⟩
    · cases hfa : f a with
      | error e => exact ⟨e, rfl⟩
      | ok b2 =>
        obtain ⟨e, he⟩ := ih hmem
        rw [he]
        exact ⟨e, rfl⟩

theorem mapM_ok_mem {α β : Type} (f : α → Except String β)
    (l : List α) (r : List β) (h : l.mapM f = .ok r) :
    ∀ y ∈ r, ∃ x, x ∈ l ∧ f x = .ok y := by
  induction l generalizing r with
  | nil =>
    intro y hy
    simp only [List.mapM_nil] at h
    cases h
    simp at hy
  | cons a t ih =>
    intro y hy
    rw [List.mapM_cons] at h
    cases hfa : f a with
    | error e => rw [hfa] at h; exact absurd h (by simp [Bind.bind, Except.bind])
    | ok b2 =>
      rw [hfa] at h
      cases hmt : t.mapM f with
      | error e =>
        rw [hmt] at h
        exact absurd h (by simp [Bind.bind, Except.bind])
      | ok rt =>
        rw [hmt] at h
        have : b2 :: rt = r := by
          simpa [Bind.bind, Except.bind, pure, Except.pure] using h
        subst this
        rcases List.mem_cons.mp hy with rfl | hmem
        · exact ⟨a, List.mem_cons_self _ _, hfa⟩
        · obtain ⟨x, hx1, hx2⟩ := ih rt hmt y hmem
          exact ⟨x, List.mem_cons_of_mem _ hx1, hx2⟩

theorem archiveStep_error_on_text (p : Item) (htext : p.date.isText = true) :
    ∀ m, ∃ e, archiveStep m p = .error e := by
  intro m
  cases hd : p.date with
  | ts t => rw [hd] at htext; simp [DateVal.isText] at htext
  | text s =>
    refine ⟨"AttributeError: str has no attribute strftime", ?_⟩
    simp [archiveStep, dateStrftime, hd, Bind.bind, Except.bind]

/-- C3 counterexample: a single indexed item whose date field failed
coercion (left as text) is included in the home and full listings, but
`build_date_archives` raises `AttributeError` on it instead of excluding
it, so the build aborts rather than completing. -/
theorem text_date_item_counterexample :
    build_index 20 [c3Item] = .ok ⟨[c3Item], [c3Item]⟩ ∧
    build_date_archives [c3Item]
      = .error "AttributeError: str has no attribute strftime" :=
  ⟨rfl, rfl⟩

/-- C3 (amended): an indexed item whose date failed coercion makes the
date-archive builder raise an error (the item is reached and
`str.strftime` does not exist), so the build aborts; when such an item is
alone in the index the listing pages are still built and include it
(sorting a one-element list makes no comparison). -/
theorem text_date_aborts_date_archives (index : List Item) (p : Item)
    (hp : p ∈ index) (htext : p.date.isText = true) :
    (∃ e, build_date_archives index = .error e) ∧
    (∀ ppp, build_index ppp [p] = .ok ⟨[p].take ppp, [p]⟩) := by
  constructor
  · exact foldlM_error_of_mem archiveStep index p hp
      (archiveStep_error_on_text p htext) []
  · intro ppp
    rfl

theorem text_date_aborts_witness :
    (∃ e, build_date_archives [c3Item] = .error e) ∧
    (∀ ppp, build_index ppp [c3Item] = .ok ⟨[c3Item].take ppp, [c3Item]⟩) :=
  text_date_aborts_date_archives [c3Item] c3Item (List.mem_cons_self _ _) rfl

/-- C7: when every indexed item has a timestamp date, `build_index`
succeeds, the home page is exactly the first `posts_per_page` entries of
the full blog listing (so it has `min posts_per_page |index|` entries and
at most `posts_per_page`), and the full listing is the whole index sorted
by date descending. -/
theorem build_index_home_is_sorted_listing_head (posts_per_page : Nat)
    (index : List Item)
    (hts : index.all (fun p => p.date.isTs) = true) :
    (build_index posts_per_page index).isOk = true ∧
    ∀ pages, build_index posts_per_page index = .ok pages →
      pages.home = pages.fullListing.take posts_per_page ∧
      pages.home.length = min posts_per_page index.length ∧
      pages.home.length ≤ posts_per_page ∧
      pages.fullListing.Perm index ∧
      pages.fullListing.Sorted itemDateGe := by
  obtain ⟨m, hm, hperm, hsorted⟩ := pySortByDateRev_ok_of_ts index hts
  have hbi : build_index posts_per_page index = .ok ⟨m.take posts_per_page, m⟩ := by
    unfold build_index
    rw [hm]
    rfl
  constructor
  · rw [hbi]; rfl
  · intro pages hpg
    rw [hbi] at hpg
    cases hpg
    refine ⟨rfl, ?_, ?_, hperm, hsorted⟩
    · rw [List.length_take, hperm.length_eq]
    · rw [List.length_take]; omega

theorem build_index_c7_witness :
    (build_index 1 c7Index).isOk = true ∧
    ([c7b] : List Item) = [c7b, c7a].take 1 ∧
    List.Sorted itemDateGe [c7b, c7a] := by
  have h := build_index_home_is_sorted_listing_head 1 c7Index rfl
  have h2 := h.2 ⟨[c7b], [c7b, c7a]⟩ rfl
  exact ⟨h.1, h2.1, h2.2.2.2.2⟩

theorem pySortByDate_mem (l m : List Item) (h : pySortByDate l = .ok m) :
    ∀ x ∈ m, x ∈ l := by
  unfold pySortByDate at h
  split at h
  · cases h; exact fun x hx => hx
  · split at h
    · cases h
      exact fun x hx => (List.perm_insertionSort itemDateLe l).mem_iff.mp hx
    · split at h
      · cases h
        exact fun x hx => (List.perm_insertionSort itemTextLe l).mem_iff.mp hx
      · cases h

theorem feedItems_filter_idem (index : List Item) :
    feedItems index = feedItems (index.filter (fun p => !p.draft)) := by
  unfold feedItems
  rw [List.filter_filter]
  have : (fun (a : Item) => !a.draft && !a.draft) = (fun (a : Item) => !a.draft) := by
    funext a
    exact Bool.and_self _
  rw [this]

theorem sitemap_fold_skip_drafts (cfg : SiteConfig) (l : List Item) :
    ∀ acc, l.foldlM (sitemapStep cfg) acc
      = (l.filter (fun p => !p.draft)).foldlM (sitemapStep cfg) acc := by
  induction l with
  | nil => intro acc; rfl
  | cons a t ih =>
    intro acc
    by_cases hd : a.draft = true
    · rw [List.foldlM_cons,
        show sitemapStep cfg acc a = .ok acc from by simp [sitemapStep, hd],
        show (a :: t).filter (fun p => !p.draft) = t.filter (fun p => !p.draft)
          from by simp [List.filter_cons, hd]]
      exact ih acc
    · rw [List.foldlM_cons,
        show (a :: t).filter (fun p => !p.draft) = a :: t.filter (fun p => !p.draft)
          from by simp [List.filter_cons, hd],
        List.foldlM_cons]
      cases hsa : sitemapStep cfg acc a with
      | error e => rfl
      | ok acc2 => exact ih acc2

theorem sitemap_fold_ok_mem (cfg : SiteConfig) (l : List Item) :
    ∀ acc r, l.foldlM (sitemapStep cfg) acc = .ok r →
      ∀ e ∈ r, e ∈ acc ∨ ∃ p, p ∈ l ∧ p.draft = false ∧ mkSitemapEntry cfg p = .ok e := by
  induction l with
  | nil =>
    intro acc r h e he
    have : acc = r := by simpa [List.foldlM_nil, pure, Except.pure] using h
    subst this
    exact Or.inl he
  | cons a t ih =>
    intro acc r h e he
    rw [List.foldlM_cons] at h
    by_cases hd : a.draft = true
    · rw [show sitemapStep cfg acc a = .ok acc from by simp [sitemapStep, hd]] at h
      rcases ih acc r h e he with h3 | ⟨p, hp1, hp2, hp3⟩
      · exact Or.inl h3
      · exact Or.inr ⟨p, List.mem_cons_of_mem _ hp1, hp2, hp3⟩
    · cases hms : mkSitemapEntry cfg a with
      | error e2 =>
        rw [show sitemapStep cfg acc a = .error e2 from by
          simp [sitemapStep, hd, hms, Bind.bind, Except.bind]] at h
        cases h
      | ok ea =>
        rw [show sitemapStep cfg acc a = .ok (acc ++ [ea]) from by
          simp [sitemapStep, hd, hms, Bind.bind, Except.bind]] at h
        rcases ih _ r h e he with h3 | ⟨p, hp1, hp2, hp3⟩
        · rcases List.mem_append.mp h3 with h4 | h4
          · exact Or.inl h4
          · have : e = ea := by simpa using h4
            subst this
            exact Or.inr ⟨a, List.mem_cons_self _ _, by simpa using hd, hms⟩
        · exact Or.inr ⟨p, List.mem_cons_of_mem _ hp1, hp2, hp3⟩

theorem build_feeds_ok_mem (cfg : SiteConfig) (index : List Item)
    (entries : List FeedEntry)
    (h : build_feeds cfg index = .ok (some entries)) :
    ∀ e ∈ entries, ∃ p, p ∈ index ∧ p.draft = false ∧ mkFeedEntry cfg p = .ok e := by
  intro e he
  unfold build_feeds at h
  split at h
  · exact absurd h (by simp)
  · cases hfi : feedItems index with
    | error e2 =>
      rw [hfi] at h
      exact absurd h (by simp [Bind.bind, Except.bind])
    | ok items =>
      rw [hfi] at h
      simp only [Bind.bind, Except.bind] at h
      cases hmM : items.mapM (mkFeedEntry cfg) with
      | error e2 =>
        rw [hmM] at h
        exact absurd h (by simp)
      | ok r =>
        rw [hmM] at h
        have hr : r = entries := by
          simpa using h
        subst hr
        obtain ⟨x, hx1, hx2⟩ := mapM_ok_mem _ items r hmM e he
        have hxf : x ∈ index.filter (fun p => !p.draft) :=
          pySortByDate_mem _ items hfi x hx1
        rw [List.mem_filter] at hxf
        exact ⟨x, hxf.1, by simpa using hxf.2, hx2⟩

/-- C6: draft items contribute nothing to the feeds or the sitemap,
whatever the rest of the configuration did to the index: both builders
compute the same output on the index and on the index with drafts
removed, and every feed entry and sitemap entry produced arises from a
non-draft indexed item. -/
theorem drafts_never_in_feeds_or_sitemap (cfg : SiteConfig) (index : List Item) :
    build_feeds cfg index = build_feeds cfg (index.filter (fun p => !p.draft)) ∧
    build_sitemap cfg index = build_sitemap cfg (index.filter (fun p => !p.draft)) ∧
    (∀ entries, build_feeds cfg index = .ok (some entries) →
      ∀ e ∈ entries, ∃ p, p ∈ index ∧ p.draft = false ∧ mkFeedEntry cfg p = .ok e) ∧
    (∀ sm, build_sitemap cfg index = .ok sm →
      ∀ e ∈ sm, ∃ p, p ∈ index ∧ p.draft = false ∧ mkSitemapEntry cfg p = .ok e) := by
  refine ⟨?_, ?_, build_feeds_ok_mem cfg index, ?_⟩
  · unfold build_feeds
    rw [feedItems_filter_idem]
  · exact sitemap_fold_skip_drafts cfg index []
  · intro sm h e he
    rcases sitemap_fold_ok_mem cfg index [] sm h e he with h2 | h2
    · simp at h2
    · exact h2

theorem drafts_never_in_feeds_or_sitemap_witness :
    (∃ p, p ∈ [c6Post, c6Draft] ∧ p.draft = false ∧ mkFeedEntry c6cfg p = .ok c6Entry) ∧
    (∃ p, p ∈ [c6Post, c6Draft] ∧ p.draft = false ∧ mkSitemapEntry c6cfg p = .ok c6Sm) := by
  have h := drafts_never_in_feeds_or_sitemap c6cfg [c6Post, c6Draft]
  exact ⟨h.2.2.1 [c6Entry] rfl c6Entry (by simp),
    h.2.2.2 [c6Sm] rfl c6Sm (by simp)⟩

/-- C9: the feed and sitemap builders presuppose that every non-draft
item carries an explicit `url` front-matter key: when the index contains a
non-draft item without one (its output location was instead derived from
the file base name in `get_output_paths`), `build_feeds` (when enabled,
with sortable dates) and `build_sitemap` stop with a missing-key error
instead of producing output. -/
theorem feeds_and_sitemap_need_url (cfg : SiteConfig) (index : List Item)
    (hen : cfg.feeds_enabled = true)
    (hts : index.all (fun p => p.date.isTs) = true)
    (hurl : ∃ p, p ∈ index ∧ p.draft = false ∧ p.url = none) :
    (∃ e, build_feeds cfg index = .error e) ∧
    (∃ e, build_sitemap cfg index = .error e) := by
  obtain ⟨p, hp, hnd, hpu⟩ := hurl
  constructor
  · have hfilter : p ∈ index.filter (fun q => !q.draft) :=
      List.mem_filter.mpr ⟨hp, by simp [hnd]⟩
    have htsf : (index.filter (fun q => !q.draft)).all (fun q => q.date.isTs) = true := by
      rw [List.all_eq_true] at hts ⊢
      intro q hq
      exact hts q (List.mem_filter.mp hq).1
    obtain ⟨items, hitems, hperm, _⟩ := pySortByDate_ok_of_ts _ htsf
    have hpitems : p ∈ items := hperm.mem_iff.mpr hfilter
    have hmk : ∃ e, mkFeedEntry cfg p = .error e :=
      ⟨"KeyError: url", by simp [mkFeedEntry, hpu, Bind.bind, Except.bind]⟩
    obtain ⟨e, he⟩ := mapM_error_of_mem (mkFeedEntry cfg) items p hpitems hmk
    refine ⟨e, ?_⟩
    unfold build_feeds
    rw [if_neg (by simp [hen])]
    show (feedItems index >>= fun items =>
      items.mapM (mkFeedEntry cfg) >>= fun entries => Except.ok (some entries)) = _
    rw [show feedItems index = Except.ok items from hitems]
    simp only [Bind.bind, Except.bind]
    rw [he]
  · have hstep : ∀ acc, ∃ e, sitemapStep cfg acc p = .error e := by
      intro acc
      exact ⟨"KeyError: url",
        by simp [sitemapStep, hnd, mkSitemapEntry, hpu, Bind.bind, Except.bind]⟩
    exact foldlM_error_of_mem (sitemapStep cfg) index p hp hstep []

theorem feeds_and_sitemap_need_url_witness :
    (∃ e, build_feeds c9cfg [c9NoUrl] = .error e) ∧
    (∃ e, build_sitemap c9cfg [c9NoUrl] = .error e) :=
  feeds_and_sitemap_need_url c9cfg [c9NoUrl] rfl rfl
    ⟨c9NoUrl, List.mem_cons_self _ _, rfl, rfl⟩

/-- C8 counterexample: with two non-draft items of equal date, both the
ascending feed sort and the descending listing sort keep discovery order
(Python sorts are stable and `reverse=True` does not reorder equal keys),
so the feed sequence is not the reverse of the listing sequence. -/
theorem feed_not_reverse_of_listing_on_equal_dates :
    feedItems [c8a, c8b] = .ok [c8a, c8b] ∧
    pySortByDateRev [c8a, c8b] = .ok [c8a, c8b] ∧
    ([c8a, c8b].filter (fun p => !p.draft)).reverse = [c8b, c8a] ∧
    ([c8a, c8b] : List Item) ≠ [c8b, c8a] :=
  ⟨rfl, rfl, rfl, by decide⟩

theorem feedItems_ok_unique (index : List Item) (asc : List Item)
    (h : feedItems index = .ok asc)
    (hts : (index.filter (fun p => !p.draft)).all (fun p => p.date.isTs) = true) :
    asc.Perm (index.filter (fun p => !p.draft)) ∧ asc.Sorted itemDateLe := by
  obtain ⟨m, hm, hperm, hsorted⟩ := pySortByDate_ok_of_ts _ hts
  have : asc = m := by
    unfold feedItems at h
    rw [hm] at h
    cases h
    rfl
  subst this
  exact ⟨hperm, hsorted⟩

/-- C8 (amended): with timestamp dates throughout, the feed entries are
sorted ascending by date and the listing pages descending by date; the
feed order is the reverse of the listing order restricted to non-draft
items *whenever no two non-draft items share a date*.  Under equal dates
both stable sorts preserve discovery order, so the sequences are then not
mutual reverses (see the counterexample for this claim). -/
theorem feed_ascending_listing_descending (index : List Item)
    (hts : index.all (fun p => p.date.isTs) = true) :
    (∀ asc, feedItems index = .ok asc → asc.Sorted itemDateLe) ∧
    (∀ desc, pySortByDateRev index = .ok desc → desc.Sorted itemDateGe) ∧
    ((index.filter (fun p => !p.draft)).Pairwise
        (fun a b => dateKeyTs a ≠ dateKeyTs b) →
      ∀ asc desc, feedItems index = .ok asc → pySortByDateRev index = .ok desc →
        asc = (desc.filter (fun p => !p.draft)).reverse) := by
  have htsf : (index.filter (fun p => !p.draft)).all (fun p => p.date.isTs) = true := by
    rw [List.all_eq_true] at hts ⊢
    intro q hq
    exact hts q (List.mem_filter.mp hq).1
  refine ⟨?_, ?_, ?_⟩
  · intro asc h
    exact (feedItems_ok_unique index asc h htsf).2
  · intro desc h
    obtain ⟨m, hm, hperm, hsorted⟩ := pySortByDateRev_ok_of_ts index hts
    rw [hm] at h
    cases h
    exact hsorted
  · intro hdist asc desc hasc hdesc
    obtain ⟨hascperm, hascsort⟩ := feedItems_ok_unique index asc hasc htsf
    obtain ⟨m, hm, hdescperm, hdescsort⟩ := pySortByDateRev_ok_of_ts index hts
    rw [hm] at hdesc
    cases hdesc
    -- the target sequence and its permutation relation to asc
    have hfperm : (desc.filter (fun p => !p.draft)).Perm
        (index.filter (fun p => !p.draft)) := hdescperm.filter _
    have htargetperm : ((desc.filter (fun p => !p.draft)).reverse).Perm
        (index.filter (fun p => !p.draft)) :=
      ((desc.filter (fun p => !p.draft)).reverse_perm).trans hfperm
    have hperm : asc.Perm ((desc.filter (fun p => !p.draft)).reverse) :=
      hascperm.trans htargetperm.symm
    -- strict sortedness of both sides
    have hne_symm : ∀ {x y : Item},
        dateKeyTs x ≠ dateKeyTs y → dateKeyTs y ≠ dateKeyTs x :=
      fun h => Ne.symm h
    have hascdist : asc.Pairwise (fun a b => dateKeyTs a ≠ dateKeyTs b) :=
      (hascperm.pairwise_iff hne_symm).mpr hdist
    have hascstrict : asc.Pairwise
        (fun a b => itemDateLe a b ∧ dateKeyTs a ≠ dateKeyTs b) :=
      hascsort.and hascdist
    have hfsort : (desc.filter (fun p => !p.draft)).Sorted itemDateGe :=
      hdescsort.sublist (List.filter_sublist desc)
    have hfdist : (desc.filter (fun p => !p.draft)).Pairwise
        (fun a b => dateKeyTs a ≠ dateKeyTs b) :=
      (hfperm.pairwise_iff hne_symm).mpr hdist
    have htargetstrict : ((desc.filter (fun p => !p.draft)).reverse).Pairwise
        (fun a b => itemDateLe a b ∧ dateKeyTs a ≠ dateKeyTs b) := by
      rw [List.pairwise_reverse]
      refine ((hfsort.and hfdist).imp ?_)
      intro a b hab
      exact ⟨hab.1, hne_symm hab.2⟩
    haveI : IsAntisymm Item (fun a b => itemDateLe a b ∧ dateKeyTs a ≠ dateKeyTs b) :=
      ⟨fun a b h1 h2 => absurd (Timestamp.leb_antisymm _ _ h1.1 h2.1) h1.2⟩
    exact List.eq_of_perm_of_sorted hperm hascstrict htargetstrict

theorem feed_ascending_listing_descending_witness :
    List.Sorted itemDateLe [c8c, c8e] ∧
    List.Sorted itemDateGe [c8e, c8d, c8c] ∧
    ([c8c, c8e] : List Item) = (([c8e, c8d, c8c].filter (fun p => !p.draft)).reverse) := by
  have h := feed_ascending_listing_descending [c8c, c8d, c8e] rfl
  refine ⟨h.1 [c8c, c8e] rfl, h.2.1 [c8e, c8d, c8c] rfl,
    h.2.2 (by decide) [c8c, c8e] [c8e, c8d, c8c] rfl rfl⟩

theorem bucketLookup_cons (a : String) (b : List Item)
    (m : List (String × List Item)) (k : String) :
    bucketLookup ((a, b) :: m) k = if a == k then some b else bucketLookup m k := by
  simp only [bucketLookup, List.find?]
  split <;> simp_all

theorem bucket_add_self (m : List (String × List Item)) (k : String) (p : Item) :
    ∃ items, bucketLookup (addToBucket m k p) k = some items ∧ p ∈ items := by
  induction m with
  | nil =>
    refine ⟨[p], ?_, by simp⟩
    rw [show addToBucket [] k p = [(k, [p])] from rfl, bucketLookup_cons]
    simp
  | cons e rest ih =>
    rcases e with ⟨a, b⟩
    simp only [addToBucket]
    split
    · rename_i h
      exact ⟨b ++ [p], by rw [bucketLookup_cons, if_pos h], by simp⟩
    · rename_i h
      obtain ⟨items, h1, h2⟩ := ih
      refine ⟨items, ?_, h2⟩
      rw [bucketLookup_cons, if_neg (by simpa using h)]
      exact h1

theorem bucket_add_preserve (m : List (String × List Item)) (k2 : String) (q : Item)
    (k : String) (items : List Item) (p : Item)
    (h : bucketLookup m k = some items) (hp : p ∈ items) :
    ∃ items2, bucketLookup (addToBucket m k2 q) k = some items2 ∧ p ∈ items2 := by
  induction m with
  | nil => simp [bucketLookup] at h
  | cons e rest ih =>
    rcases e with ⟨a, b⟩
    rw [bucketLookup_cons] at h
    simp only [addToBucket]
    split
    · by_cases hak : (a == k) = true
      · rw [if_pos hak] at h
        cases h
        exact ⟨items ++ [q], by rw [bucketLookup_cons, if_pos hak],
          List.mem_append_left _ hp⟩
      · rw [if_neg hak] at h
        exact ⟨items, by rw [bucketLookup_cons, if_neg hak]; exact h, hp⟩
    · by_cases hak : (a == k) = true
      · rw [if_pos hak] at h
        cases h
        exact ⟨items, by rw [bucketLookup_cons, if_pos hak], hp⟩
      · rw [if_neg hak] at h
        obtain ⟨items2, h1, h2⟩ := ih h
        exact ⟨items2, by rw [bucketLookup_cons, if_neg hak]; exact h1, h2⟩

theorem bucket_fold_preserve_inner (tags : List String) (q : Item) :
    ∀ m k items p, bucketLookup m k = some items → p ∈ items →
      ∃ items2,
        bucketLookup (tags.foldl (fun m t => addToBucket m (normalize_tag t) q) m) k
          = some items2 ∧ p ∈ items2 := by
  induction tags with
  | nil => intro m k items p h hp; exact ⟨items, h, hp⟩
  | cons t rest ih =>
    intro m k items p h hp
    obtain ⟨i2, h2, hp2⟩ := bucket_add_preserve m (normalize_tag t) q k items p h hp
    exact ih _ k i2 p h2 hp2

theorem bucket_fold_preserve_outer (l : List Item) :
    ∀ m k items p, bucketLookup m k = some items → p ∈ items →
      ∃ items2, bucketLookup (l.foldl tagStep m) k = some items2 ∧ p ∈ items2 := by
  induction l with
  | nil => intro m k items p h hp; exact ⟨items, h, hp⟩
  | cons a rest ih =>
    intro m k items p h hp
    obtain ⟨i2, h2, hp2⟩ := bucket_fold_preserve_inner a.tags a m k items p h hp
    exact ih _ k i2 p h2 hp2

theorem inner_fold_mem (tags : List String) (q : Item) (t : String) (ht : t ∈ tags) :
    ∀ m, ∃ items,
      bucketLookup (tags.foldl (fun m t => addToBucket m (normalize_tag t) q) m)
        (normalize_tag t) = some items ∧ q ∈ items := by
  induction tags with
  | nil => simp at ht
  | cons t0 rest ih =>
    intro m
    rcases List.mem_cons.mp ht with rfl | hmem
    · obtain ⟨items, h1, h2⟩ := bucket_add_self m (normalize_tag t) q
      exact bucket_fold_preserve_inner rest q _ _ items q h1 h2
    · exact ih hmem _

theorem tagPages_mem (l : List Item) :
    ∀ m p, p ∈ l → ∀ t, t ∈ p.tags →
      ∃ items, bucketLookup (l.foldl tagStep m) (normalize_tag t) = some items ∧
        p ∈ items := by
  induction l with
  | nil => intro m p hp; simp at hp
  | cons a rest ih =>
    intro m p hp t ht
    rcases List.mem_cons.mp hp with rfl | hmem
    · obtain ⟨items, h1, h2⟩ := inner_fold_mem p.tags p t ht m
      exact bucket_fold_preserve_outer rest _ _ items p h1 h2
    · exact ih _ p hmem t ht

theorem mem_dedup_fold (l : List String) :
    ∀ acc s,
      (s ∈ l.foldl (fun acc t => if acc.contains t then acc else acc ++ [t]) acc)
        ↔ (s ∈ acc ∨ s ∈ l) := by
  induction l with
  | nil => intro acc s; simp
  | cons a t ih =>
    intro acc s
    simp only [List.foldl_cons]
    split
    · rename_i h
      rw [ih]
      constructor
      · rintro (h1 | h1)
        · exact Or.inl h1
        · exact Or.inr (List.mem_cons_of_mem _ h1)
      · rintro (h1 | h1)
        · exact Or.inl h1
        · rcases List.mem_cons.mp h1 with rfl | h2
          · exact Or.inl (by simpa using h)
          · exact Or.inr h2
    · rw [ih]
      constructor
      · rintro (h1 | h1)
        · rcases List.mem_append.mp h1 with h2 | h2
          · exact Or.inl h2
          · have : s = a := by simpa using h2
            subst this
            exact Or.inr (List.mem_cons_self _ _)
        · exact Or.inr (List.mem_cons_of_mem _ h1)
      · rintro (h1 | h1)
        · exact Or.inl (List.mem_append_left _ h1)
        · rcases List.mem_cons.mp h1 with rfl | h2
          · exact Or.inl (List.mem_append_right _ (by simp))
          · exact Or.inr h2

theorem mem_sortedUnique (l : List String) (s : String) :
    s ∈ sortedUnique l ↔ s ∈ l := by
  unfold sortedUnique
  rw [(List.perm_insertionSort strLe _).mem_iff, mem_dedup_fold l [] s]
  simp

theorem mem_allTags (index : List Item) (t : String) :
    t ∈ allTags index ↔ ∃ p, p ∈ index ∧ t ∈ p.tags := by
  unfold allTags
  rw [List.mem_flatMap]

/-- C4 (amended): the tag-index page lists exactly the normalized slugs of
the tags occurring on indexed items (each slug listed once per distinct
*original* tag value, because `sorted(set(...))` de-duplicates before
normalization — so the list can repeat a slug and need not be sorted),
and the per-tag pages contain, under each normalized slug, every item
carrying any tag that normalizes to that slug. -/
theorem build_tags_lists_and_groups (index : List Item) :
    (∀ s, s ∈ (build_tags index).tagIndex ↔
      ∃ p, p ∈ index ∧ ∃ t, t ∈ p.tags ∧ normalize_tag t = s) ∧
    (∀ p, p ∈ index → ∀ t, t ∈ p.tags →
      ∃ items,
        bucketLookup (build_tags index).tagPages (normalize_tag t) = some items ∧
        p ∈ items) := by
  constructor
  · intro s
    show s ∈ (sortedUnique (allTags index)).map normalize_tag ↔ _
    rw [List.mem_map]
    constructor
    · rintro ⟨t, ht, rfl⟩
      rw [mem_sortedUnique] at ht
      obtain ⟨p, hp, hpt⟩ := (mem_allTags index t).mp ht
      exact ⟨p, hp, t, hpt, rfl⟩
    · rintro ⟨p, hp, t, hpt, rfl⟩
      exact ⟨t, (mem_sortedUnique _ _).mpr ((mem_allTags index t).mpr ⟨p, hp, hpt⟩), rfl⟩
  · intro p hp t ht
    exact tagPages_mem index [] p hp t ht

/-- C4 counterexample: one indexed item tagged `"Go Lang"` and `"go-lang"`.
Both originals survive `sorted(set(...))` (they are distinct strings), and
normalization afterwards maps both to `go-lang`, so the tag-index page
lists the slug twice — the list of normalized slugs is not
duplicate-free. -/
theorem tag_index_contains_duplicate_slugs :
    (build_tags [c4Item]).tagIndex = ["go-lang", "go-lang"] ∧
    ¬ (["go-lang", "go-lang"] : List String).Nodup :=
  ⟨rfl, by decide⟩

theorem build_tags_lists_and_groups_witness :
    ("lean-lang" ∈ (build_tags [c4bItem]).tagIndex) ∧
    (∃ items, bucketLookup (build_tags [c4bItem]).tagPages "lean-lang" = some items ∧
      c4bItem ∈ items) := by
  have h := build_tags_lists_and_groups [c4bItem]
  constructor
  · exact (h.1 "lean-lang").mpr ⟨c4bItem, by simp, "Lean Lang", by simp [c4bItem], rfl⟩
  · exact h.2 c4bItem (by simp) "Lean Lang" (by simp [c4bItem])

end SiteGen
